import Mathlib

/-! Numerical limit and derivative scripts.

A shallow embedding of `src/math/limit.cpp` and `src/math/numerical_derivative.cpp`, over two
models of the C++ type `double`.

`Dbl` is the exact model: a finite value is an exact rational, and the three IEEE-754 special
values (`+inf`, `-inf`, not-a-number) are separate constructors. Arithmetic on finite values
is exact (no rounding, no overflow); an operation with a special operand, and a division by
zero, follow the IEEE-754 rules. Zero carries no sign: `x / 0` is `+inf` for `x > 0`, `-inf`
for `x < 0` and not-a-number for `x = 0`. The properties of the control flow (lengths and
prefixes of the sequences, which function a body calls, the runs with no iteration) and of
the special values are stated on this model.

`Double` is the binary64 model: every arithmetic operation is rounded once, to the nearest
binary64 number with ties to even, with gradual underflow, overflow to an infinity and a
signed zero (no fused multiply-add, no extended precision). The properties that depend on
the values computed in floating point are stated on this model, on the second embedding
of the two source files in the namespace `Binary64`.

`int` is modelled by `Int`; a loop `for (int i = 0; i < n; i++)` runs `n.toNat` times.
-/

/-- Values of the C++ type `double`: an exact rational or one of the IEEE-754 special values. -/
inductive Dbl where
  | fin (q : ℚ)
  | pinf
  | ninf
  | nan
  deriving DecidableEq

namespace Dbl

/-- Unary minus. -/
def neg : Dbl → Dbl
  | fin q => fin (-q)
  | pinf => ninf
  | ninf => pinf
  | nan => nan

/-- Addition `a + b`. -/
def add : Dbl → Dbl → Dbl
  | fin a, fin b => fin (a + b)
  | nan, _ => nan
  | _, nan => nan
  | pinf, ninf => nan
  | ninf, pinf => nan
  | pinf, _ => pinf
  | _, pinf => pinf
  | ninf, _ => ninf
  | _, ninf => ninf

/-- Subtraction `a - b`. -/
def sub (a b : Dbl) : Dbl := add a (neg b)

/-- The infinity with the sign of `s * t`, where `s` is the sign of an infinity
(`true` for `+inf`) and `t` a finite factor; not-a-number when `t = 0`. -/
def infTimes (s : Bool) (t : ℚ) : Dbl :=
  if t = 0 then nan else if (0 < t) = s then pinf else ninf

/-- Multiplication `a * b`. -/
def mul : Dbl → Dbl → Dbl
  | fin a, fin b => fin (a * b)
  | nan, _ => nan
  | _, nan => nan
  | pinf, fin b => infTimes true b
  | ninf, fin b => infTimes false b
  | fin a, pinf => infTimes true a
  | fin a, ninf => infTimes false a
  | pinf, pinf => pinf
  | ninf, ninf => pinf
  | pinf, ninf => ninf
  | ninf, pinf => ninf

/-- Division `a / b`. -/
def div : Dbl → Dbl → Dbl
  | fin a, fin b =>
    if b = 0 then (if a = 0 then nan else if 0 < a then pinf else ninf) else fin (a / b)
  | nan, _ => nan
  | _, nan => nan
  | fin _, pinf => fin 0
  | fin _, ninf => fin 0
  | pinf, fin b => if 0 ≤ b then pinf else ninf
  | ninf, fin b => if 0 ≤ b then ninf else pinf
  | pinf, pinf => nan
  | pinf, ninf => nan
  | ninf, pinf => nan
  | ninf, ninf => nan

/-- Absolute value `std::abs(a)`. -/
def abs : Dbl → Dbl
  | fin q => fin |q|
  | pinf => pinf
  | ninf => pinf
  | nan => nan

/-- Comparison `a <= b`; false as soon as an operand is not-a-number. -/
def le : Dbl → Dbl → Bool
  | fin a, fin b => decide (a ≤ b)
  | nan, _ => false
  | _, nan => false
  | ninf, _ => true
  | _, pinf => true
  | pinf, _ => false
  | fin _, ninf => false

/-- A value is finite when it is neither an infinity nor not-a-number. -/
def isFinite : Dbl → Bool
  | fin _ => true
  | _ => false

instance : Add Dbl := ⟨add⟩
instance : Sub Dbl := ⟨sub⟩
instance : Mul Dbl := ⟨mul⟩
instance : Div Dbl := ⟨div⟩

end Dbl

namespace NumericalDerivative

/-- Function `f` of numerical_derivative.cpp: `(x * x) - (2 * x) - 1`. -/
def f (x : Dbl) : Dbl := (x * x) - (Dbl.fin 2 * x) - Dbl.fin 1

/-- Loop of `finite_difference`: `k` iterations remain, `h` is the current step and
`derivatives` the vector built so far. -/
def finite_difference_loop (f : Dbl → Dbl) (x : Dbl) : Nat → Dbl → List Dbl → List Dbl
  | 0, _, derivatives => derivatives
  | k + 1, h, derivatives =>
    let d_dx := (f (x + h) - f x) / h
    finite_difference_loop f x k (h / Dbl.fin 2) (derivatives ++ [d_dx])

/-- Function `finite_difference` of numerical_derivative.cpp. -/
def finite_difference (x h : Dbl) (n : Int) (f : Dbl → Dbl) : List Dbl :=
  finite_difference_loop f x n.toNat h []

/-- Loop of `central_difference`; the quotient is taken of the file-level `f`. -/
def central_difference_loop (x : Dbl) : Nat → Dbl → List Dbl → List Dbl
  | 0, _, derivatives => derivatives
  | k + 1, h, derivatives =>
    let d_dx := (f (x + h) - f (x - h)) / (Dbl.fin 2 * h)
    central_difference_loop x k (h / Dbl.fin 2) (derivatives ++ [d_dx])

/-- Function `central_difference` of numerical_derivative.cpp. Its function parameter is
named `d`; the body calls `f`, which is the file-level function. -/
def central_difference (x h : Dbl) (n : Int) (d : Dbl → Dbl) : List Dbl :=
  central_difference_loop x n.toNat h []

/-- The two sequences `f_d` and `c_d` that `main` of numerical_derivative.cpp computes and
prints side by side, with `x = 2`, `h = 0.1` (the exact rational `1/10`) and `n = 20`. -/
def main : List (Dbl × Dbl) :=
  let x := Dbl.fin 2
  let h := Dbl.fin (1 / 10)
  let n : Int := 20
  let f_d := finite_difference x h n f
  let c_d := central_difference x h n f
  List.zip f_d c_d

end NumericalDerivative

namespace Limit

/-- Function `f_1` of limit.cpp: `(x * x) - (2 * x) - 1`. -/
def f_1 (x : Dbl) : Dbl := (x * x) - (Dbl.fin 2 * x) - Dbl.fin 1

/-- Function `f_2` of limit.cpp: `x / (2 * x - 1)`. -/
def f_2 (x : Dbl) : Dbl := x / (Dbl.fin 2 * x - Dbl.fin 1)

/-- Function `f_3` of limit.cpp: `(x * x - 3) / (4 * x - 5)`. -/
def f_3 (x : Dbl) : Dbl := (x * x - Dbl.fin 3) / (Dbl.fin 4 * x - Dbl.fin 5)

/-- The variables the loop of `numerical_limit` updates. -/
structure LimitState where
  step : Dbl
  l_limit : Dbl
  r_limit : Dbl

/-- Loop of `numerical_limit`, run for `k` iterations from state `s`. -/
def numerical_limit_loop (f : Dbl → Dbl) (a : Dbl) : Nat → LimitState → LimitState
  | 0, s => s
  | k + 1, s =>
    numerical_limit_loop f a k
      { l_limit := f (a - s.step), r_limit := f (a + s.step), step := s.step / Dbl.fin 2 }

/-- Function `numerical_limit` of limit.cpp; the result `Dbl.nan` is the "limit does not
exist" sentinel. -/
def numerical_limit (a : Dbl) (n : Int) (step tol : Dbl) (f : Dbl → Dbl) : Dbl :=
  let s := numerical_limit_loop f a n.toNat
    { step := step, l_limit := Dbl.fin 0, r_limit := Dbl.fin 0 }
  if Dbl.le (Dbl.abs (s.r_limit - s.l_limit)) tol then
    (s.l_limit + s.r_limit) / Dbl.fin 2
  else
    Dbl.nan

/-- The three values `lim_1`, `lim_2`, `lim_3` that `main` of limit.cpp computes and prints;
the literals `0.1` and `0.001` are the exact rationals `1/10` and `1/1000`. -/
def main : List Dbl :=
  let lim_1 := numerical_limit (Dbl.fin 2) 10 (Dbl.fin (1 / 10)) (Dbl.fin (1 / 1000)) f_1
  let lim_2 := numerical_limit (Dbl.fin 5) 10 (Dbl.fin (1 / 10)) (Dbl.fin (1 / 1000)) f_2
  let lim_3 := numerical_limit (Dbl.fin 3) 10 (Dbl.fin (1 / 10)) (Dbl.fin (1 / 1000)) f_3
  [lim_1, lim_2, lim_3]

end Limit

/-! ## The binary64 model of `double`

`Double` models `double` with the rounding of IEEE-754 binary64: every arithmetic operation
returns the representable value nearest to the exact result (ties to even), with gradual
underflow, overflow to an infinity and a signed zero. `Binary64.NumericalDerivative` and
`Binary64.Limit` embed the two source files over it.
-/

/-- Values of the C++ type `double` in IEEE-754 binary64. `fin q` is the finite value `q`
other than `-0.0` (so `fin 0` is `+0.0`) and `nzero` is `-0.0`; the operations below only
return `fin q` for `q` a binary64 number. -/
inductive Double where
  | fin (q : ℚ)
  | nzero
  | pinf
  | ninf
  | nan
  deriving DecidableEq

namespace Double

/-- The power `2 ^ e` for an integer exponent `e`. -/
def pow2 (e : Int) : ℚ := mkRat (2 ^ e.toNat) (2 ^ (-e).toNat)

/-- The first bound `hi` among `hi, 2 * hi, 4 * hi, ...` with `n < 2 ^ hi`; `fuel` bounds
the number of doublings. -/
def log2Upper (n : Nat) : Nat → Nat → Nat
  | 0, hi => hi
  | fuel + 1, hi => if n < 2 ^ hi then hi else log2Upper n fuel (2 * hi)

/-- Bisection: from `2 ^ lo ≤ n < 2 ^ hi` to the exponent `e` with `2 ^ e ≤ n < 2 ^ (e + 1)`;
`fuel` bounds the number of steps. -/
def log2Search (n : Nat) : Nat → Nat → Nat → Nat
  | 0, lo, _ => lo
  | fuel + 1, lo, hi =>
    if hi ≤ lo + 1 then lo
    else if 2 ^ ((lo + hi) / 2) ≤ n then log2Search n fuel ((lo + hi) / 2) hi
    else log2Search n fuel lo ((lo + hi) / 2)

/-- The integer part of `log2 n`, for `n ≥ 1`. -/
def log2 (n : Nat) : Nat := log2Search n (2 * n) 0 (log2Upper n n 1)

/-- The exponent `e` with `2 ^ e ≤ a < 2 ^ (e + 1)`, for `a > 0`. -/
def floorLog2 (a : ℚ) : Int :=
  let e0 : Int := (log2 a.num.natAbs : Int) - (log2 a.den : Int)
  if pow2 e0 ≤ a then e0 else e0 - 1

/-- The integer nearest to `n / d`, a tie going to the even one. -/
def roundHalfEven (n d : Nat) : Nat :=
  let m := n / d
  let r := n % d
  if 2 * r < d then m else if d < 2 * r then m + 1 else if m % 2 = 0 then m else m + 1

/-- The exponent `p` of the unit in the last place `2 ^ p` of the binade of `a > 0`: with
`2 ^ e ≤ a < 2 ^ (e + 1)` it is `e - 52` (53 significant bits), and `-1074` in the
subnormal range `e < -1022`. -/
def ulpExp (a : ℚ) : Int := max (floorLog2 a) (-1022) - 52

/-- The magnitude `a > 0` rounded to the nearest multiple of its unit in the last place, a
tie going to the even multiple. -/
def roundMag (a : ℚ) : ℚ :=
  (roundHalfEven (a / pow2 (ulpExp a)).num.natAbs (a / pow2 (ulpExp a)).den : ℚ)
    * pow2 (ulpExp a)

/-- Rounding to nearest, ties to even: the binary64 value of the exact result `q`. A rounded
magnitude of `2 ^ 1024` or more overflows to an infinity, and a result rounded to zero keeps
the sign of `q`. -/
def ofRat (q : ℚ) : Double :=
  if q = 0 then fin 0
  else if pow2 1024 ≤ roundMag |q| then (if 0 < q then pinf else ninf)
  else if roundMag |q| = 0 then (if 0 < q then fin 0 else nzero)
  else fin (if 0 < q then roundMag |q| else -roundMag |q|)

/-- The sign bit. -/
def signBit : Double → Bool
  | fin q => decide (q < 0)
  | nzero => true
  | pinf => false
  | ninf => true
  | nan => false

/-- The zero with sign bit `s`. -/
def zero (s : Bool) : Double := if s then nzero else fin 0

/-- The infinity with sign bit `s`. -/
def inf (s : Bool) : Double := if s then ninf else pinf

/-- A value is finite when it is neither an infinity nor not-a-number. -/
def isFinite : Double → Bool
  | fin _ => true
  | nzero => true
  | _ => false

/-- The exact value of a finite double (`0` for `-0.0` and for the non-finite values). -/
def toRat : Double → ℚ
  | fin q => q
  | _ => 0

/-- A double is zero when it is `+0.0` or `-0.0`. -/
def isZero (x : Double) : Bool := x.isFinite && decide (x.toRat = 0)

/-- A well-formed double: a finite value is a binary64 number, one that rounding leaves
unchanged. -/
def valid : Double → Bool
  | fin q => decide (ofRat q = fin q)
  | _ => true

/-- Unary minus. -/
def neg : Double → Double
  | fin q => if q = 0 then nzero else fin (-q)
  | nzero => fin 0
  | pinf => ninf
  | ninf => pinf
  | nan => nan

/-- Addition `x + y`. An exact sum of zero is `+0.0`, except that `-0.0 + -0.0` is `-0.0`. -/
def add : Double → Double → Double
  | nan, _ => nan
  | _, nan => nan
  | pinf, ninf => nan
  | ninf, pinf => nan
  | pinf, _ => pinf
  | _, pinf => pinf
  | ninf, _ => ninf
  | _, ninf => ninf
  | nzero, nzero => nzero
  | x, y => ofRat (x.toRat + y.toRat)

/-- Subtraction `x - y`. -/
def sub (x y : Double) : Double := add x (neg y)

/-- Multiplication `x * y`; the sign of a zero or infinite product is the exclusive or of
the operands' signs, and `inf * 0` is not-a-number. -/
def mul (x y : Double) : Double :=
  if x = nan ∨ y = nan then nan
  else
    let s := xor x.signBit y.signBit
    match x.isFinite, y.isFinite with
    | true, true => if x.toRat * y.toRat = 0 then zero s else ofRat (x.toRat * y.toRat)
    | true, false => if x.toRat = 0 then nan else inf s
    | false, true => if y.toRat = 0 then nan else inf s
    | false, false => inf s

/-- Division `x / y`; `0 / 0` and `inf / inf` are not-a-number, another division by zero is
an infinity, and the sign of a zero or infinite quotient is the exclusive or of the
operands' signs. -/
def div (x y : Double) : Double :=
  if x = nan ∨ y = nan then nan
  else
    let s := xor x.signBit y.signBit
    match x.isFinite, y.isFinite with
    | true, true =>
      if y.toRat = 0 then (if x.toRat = 0 then nan else inf s)
      else if x.toRat = 0 then zero s else ofRat (x.toRat / y.toRat)
    | true, false => zero s
    | false, true => inf s
    | false, false => nan

/-- Absolute value `std::abs(x)`. -/
def abs : Double → Double
  | fin q => fin |q|
  | nzero => fin 0
  | pinf => pinf
  | ninf => pinf
  | nan => nan

/-- Comparison `x <= y`; false as soon as an operand is not-a-number. -/
def le : Double → Double → Bool
  | nan, _ => false
  | _, nan => false
  | ninf, _ => true
  | _, pinf => true
  | pinf, _ => false
  | _, ninf => false
  | x, y => decide (x.toRat ≤ y.toRat)

/-- Comparison `x < y`; false as soon as an operand is not-a-number. -/
def lt : Double → Double → Bool
  | nan, _ => false
  | _, nan => false
  | pinf, _ => false
  | _, ninf => false
  | ninf, _ => true
  | _, pinf => true
  | x, y => decide (x.toRat < y.toRat)

instance : Add Double := ⟨add⟩
instance : Sub Double := ⟨sub⟩
instance : Mul Double := ⟨mul⟩
instance : Div Double := ⟨div⟩

/-- Guarded division: `none` when the divisor is zero, the quotient `x / y` otherwise. -/
def checkedDiv (x y : Double) : Option Double :=
  if y.isZero then none else some (x / y)

end Double

namespace Binary64

/-- The step after `k` executions of `h /= 2`. -/
def halved : Nat → Double → Double
  | 0, h => h
  | k + 1, h => halved k (h / Double.fin 2)

namespace NumericalDerivative

/-- Function `f` of numerical_derivative.cpp: `(x * x) - (2 * x) - 1`. -/
def f (x : Double) : Double := (x * x) - (Double.fin 2 * x) - Double.fin 1

/-- Loop of `finite_difference`: `k` iterations remain, `h` is the current step and
`derivatives` the vector built so far. -/
def finite_difference_loop (f : Double → Double) (x : Double) :
    Nat → Double → List Double → List Double
  | 0, _, derivatives => derivatives
  | k + 1, h, derivatives =>
    let d_dx := (f (x + h) - f x) / h
    finite_difference_loop f x k (h / Double.fin 2) (derivatives ++ [d_dx])

/-- Function `finite_difference` of numerical_derivative.cpp. -/
def finite_difference (x h : Double) (n : Int) (f : Double → Double) : List Double :=
  finite_difference_loop f x n.toNat h []

/-- Loop of `central_difference`; the quotient is taken of the file-level `f`. -/
def central_difference_loop (x : Double) : Nat → Double → List Double → List Double
  | 0, _, derivatives => derivatives
  | k + 1, h, derivatives =>
    let d_dx := (f (x + h) - f (x - h)) / (Double.fin 2 * h)
    central_difference_loop x k (h / Double.fin 2) (derivatives ++ [d_dx])

/-- Function `central_difference` of numerical_derivative.cpp. Its function parameter is
named `d`; the body calls `f`, which is the file-level function. -/
def central_difference (x h : Double) (n : Int) (d : Double → Double) : List Double :=
  central_difference_loop x n.toNat h []

/-- The two sequences `f_d` and `c_d` that `main` of numerical_derivative.cpp computes and
prints side by side, with `x = 2`, `h = 0.1` (the double nearest to `1/10`) and `n = 20`. -/
def main : List (Double × Double) :=
  let x := Double.fin 2
  let h := Double.ofRat (1 / 10)
  let n : Int := 20
  let f_d := finite_difference x h n f
  let c_d := central_difference x h n f
  List.zip f_d c_d

/-- The divisors of the loop of `finite_difference`, in order: iteration `i` divides by the
current step `h`, which is then halved. -/
def finite_difference_divisors_loop : Nat → Double → List Double
  | 0, _ => []
  | k + 1, h => h :: finite_difference_divisors_loop k (h / Double.fin 2)

/-- The divisors `finite_difference(x, h, n, f)` divides by, one for each iteration. -/
def finite_difference_divisors (h : Double) (n : Int) : List Double :=
  finite_difference_divisors_loop n.toNat h

/-- The divisors of the loop of `central_difference`, in order: iteration `i` divides by
`2 * h` for the current step `h`, which is then halved. -/
def central_difference_divisors_loop : Nat → Double → List Double
  | 0, _ => []
  | k + 1, h => (Double.fin 2 * h) :: central_difference_divisors_loop k (h / Double.fin 2)

/-- The divisors `central_difference(x, h, n, d)` divides by, one for each iteration. -/
def central_difference_divisors (h : Double) (n : Int) : List Double :=
  central_difference_divisors_loop n.toNat h

/-- Loop of `finite_difference` with the division of the quotient guarded: the run stops
with `none` at the first division by zero. -/
def finite_difference_guarded_loop (f : Double → Double) (x : Double) :
    Nat → Double → List Double → Option (List Double)
  | 0, _, derivatives => some derivatives
  | k + 1, h, derivatives =>
    match Double.checkedDiv (f (x + h) - f x) h with
    | some d_dx => finite_difference_guarded_loop f x k (h / Double.fin 2) (derivatives ++ [d_dx])
    | none => none

/-- Function `finite_difference` with the division of the quotient guarded. -/
def finite_difference_guarded (x h : Double) (n : Int) (f : Double → Double) :
    Option (List Double) :=
  finite_difference_guarded_loop f x n.toNat h []

/-- Loop of `central_difference` with the division of the quotient guarded. -/
def central_difference_guarded_loop (x : Double) :
    Nat → Double → List Double → Option (List Double)
  | 0, _, derivatives => some derivatives
  | k + 1, h, derivatives =>
    match Double.checkedDiv (f (x + h) - f (x - h)) (Double.fin 2 * h) with
    | some d_dx => central_difference_guarded_loop x k (h / Double.fin 2) (derivatives ++ [d_dx])
    | none => none

/-- Function `central_difference` with the division of the quotient guarded. -/
def central_difference_guarded (x h : Double) (n : Int) (d : Double → Double) :
    Option (List Double) :=
  central_difference_guarded_loop x n.toNat h []

end NumericalDerivative

namespace Limit

/-- Function `f_1` of limit.cpp: `(x * x) - (2 * x) - 1`. -/
def f_1 (x : Double) : Double := (x * x) - (Double.fin 2 * x) - Double.fin 1

/-- Function `f_2` of limit.cpp: `x / (2 * x - 1)`. -/
def f_2 (x : Double) : Double := x / (Double.fin 2 * x - Double.fin 1)

/-- Function `f_3` of limit.cpp: `(x * x - 3) / (4 * x - 5)`. -/
def f_3 (x : Double) : Double :=
  (x * x - Double.fin 3) / (Double.fin 4 * x - Double.fin 5)

/-- The variables the loop of `numerical_limit` updates. -/
structure LimitState where
  step : Double
  l_limit : Double
  r_limit : Double

/-- Loop of `numerical_limit`, run for `k` iterations from state `s`. -/
def numerical_limit_loop (f : Double → Double) (a : Double) : Nat → LimitState → LimitState
  | 0, s => s
  | k + 1, s =>
    numerical_limit_loop f a k
      { l_limit := f (a - s.step), r_limit := f (a + s.step), step := s.step / Double.fin 2 }

/-- Function `numerical_limit` of limit.cpp; the result `Double.nan` is the "limit does not
exist" sentinel. -/
def numerical_limit (a : Double) (n : Int) (step tol : Double) (f : Double → Double) :
    Double :=
  let s := numerical_limit_loop f a n.toNat
    { step := step, l_limit := Double.fin 0, r_limit := Double.fin 0 }
  if Double.le (Double.abs (s.r_limit - s.l_limit)) tol then
    (s.l_limit + s.r_limit) / Double.fin 2
  else
    Double.nan

end Limit

end Binary64

section ExactModel

/-! ## Arithmetic of `Dbl` -/

namespace Dbl

@[simp] theorem fin_add_fin (a b : ℚ) : fin a + fin b = fin (a + b) := rfl

@[simp] theorem fin_sub_fin (a b : ℚ) : fin a - fin b = fin (a - b) := by
  show add (fin a) (neg (fin b)) = fin (a - b)
  simp [add, neg, sub_eq_add_neg]

@[simp] theorem fin_mul_fin (a b : ℚ) : fin a * fin b = fin (a * b) := rfl

theorem fin_div_fin (a : ℚ) {b : ℚ} (hb : b ≠ 0) : fin a / fin b = fin (a / b) := by
  show div (fin a) (fin b) = fin (a / b)
  simp [div, hb]

@[simp] theorem abs_fin (q : ℚ) : abs (fin q) = fin |q| := rfl

@[simp] theorem le_fin_fin (a b : ℚ) : le (fin a) (fin b) = decide (a ≤ b) := rfl

/-- Dividing by one changes nothing. -/
theorem div_one (h : Dbl) : h / fin 1 = h := by
  show div h (fin 1) = h
  cases h <;> simp [div]

/-- Two successive divisions by positive finite numbers are one division by the product. -/
theorem div_div_pos (h : Dbl) {b c : ℚ} (hb : 0 < b) (hc : 0 < c) :
    h / fin b / fin c = h / fin (b * c) := by
  have hb0 : b ≠ 0 := ne_of_gt hb
  have hc0 : c ≠ 0 := ne_of_gt hc
  have hbc : 0 < b * c := mul_pos hb hc
  show div (div h (fin b)) (fin c) = div h (fin (b * c))
  cases h <;> simp [div, hb0, hc0, hb.le, hc.le, hbc.le, div_div]

/-- Halving and then dividing by `2 ^ i` divides by `2 ^ (i + 1)`. -/
theorem half_div_two_pow (h : Dbl) (i : Nat) :
    h / fin 2 / fin (2 ^ i) = h / fin (2 ^ (i + 1)) := by
  rw [div_div_pos h (by norm_num) (by positivity), pow_succ, mul_comm]

end Dbl

open Dbl

/-! ## The derivative sequences in closed form -/

namespace NumericalDerivative

theorem finite_difference_loop_eq (f : Dbl → Dbl) (x : Dbl) (k : Nat) (h : Dbl)
    (acc : List Dbl) :
    finite_difference_loop f x k h acc =
      acc ++ (List.range k).map (fun i =>
        (f (x + h / Dbl.fin (2 ^ i)) - f x) / (h / Dbl.fin (2 ^ i))) := by
  induction k generalizing h acc with
  | zero => simp [finite_difference_loop]
  | succ k ih =>
    rw [finite_difference_loop, ih, List.range_succ_eq_map, List.map_cons, List.map_map]
    simp [Function.comp_def, Dbl.half_div_two_pow, Dbl.div_one]

theorem central_difference_loop_eq (x : Dbl) (k : Nat) (h : Dbl) (acc : List Dbl) :
    central_difference_loop x k h acc =
      acc ++ (List.range k).map (fun i =>
        (f (x + h / Dbl.fin (2 ^ i)) - f (x - h / Dbl.fin (2 ^ i))) /
          (Dbl.fin 2 * (h / Dbl.fin (2 ^ i)))) := by
  induction k generalizing h acc with
  | zero => simp [central_difference_loop]
  | succ k ih =>
    rw [central_difference_loop, ih, List.range_succ_eq_map, List.map_cons, List.map_map]
    simp [Function.comp_def, Dbl.half_div_two_pow, Dbl.div_one]

theorem finite_difference_eq (x h : Dbl) (n : Int) (f : Dbl → Dbl) :
    finite_difference x h n f =
      (List.range n.toNat).map (fun i =>
        (f (x + h / Dbl.fin (2 ^ i)) - f x) / (h / Dbl.fin (2 ^ i))) := by
  simp [finite_difference, finite_difference_loop_eq]

theorem central_difference_eq (x h : Dbl) (n : Int) (d : Dbl → Dbl) :
    central_difference x h n d =
      (List.range n.toNat).map (fun i =>
        (f (x + h / Dbl.fin (2 ^ i)) - f (x - h / Dbl.fin (2 ^ i))) /
          (Dbl.fin 2 * (h / Dbl.fin (2 ^ i)))) := by
  simp [central_difference, central_difference_loop_eq]

end NumericalDerivative

/-! ## The limit estimator in closed form -/

namespace Limit

/-- After `k + 1` iterations the state holds the two probes of the last iteration, taken at
distance `step / 2 ^ k` from `a`. -/
theorem numerical_limit_loop_succ (f : Dbl → Dbl) (a : Dbl) (k : Nat) (s : LimitState) :
    numerical_limit_loop f a (k + 1) s =
      { l_limit := f (a - s.step / Dbl.fin (2 ^ k)),
        r_limit := f (a + s.step / Dbl.fin (2 ^ k)),
        step := s.step / Dbl.fin (2 ^ (k + 1)) } := by
  induction k generalizing s with
  | zero => simp [numerical_limit_loop, Dbl.div_one]
  | succ k ih =>
    rw [numerical_limit_loop, ih]
    simp only [Dbl.half_div_two_pow]

/-- With at least one iteration, the result is decided by the two probes of the last one. -/
theorem numerical_limit_eq (a step tol : Dbl) (f : Dbl → Dbl) (n : Int) (hn : 1 ≤ n) :
    numerical_limit a n step tol f =
      if Dbl.le (Dbl.abs (f (a + step / Dbl.fin (2 ^ (n - 1).toNat))
          - f (a - step / Dbl.fin (2 ^ (n - 1).toNat)))) tol then
        (f (a - step / Dbl.fin (2 ^ (n - 1).toNat))
          + f (a + step / Dbl.fin (2 ^ (n - 1).toNat))) / Dbl.fin 2
      else Dbl.nan := by
  have hk : n.toNat = (n - 1).toNat + 1 := by omega
  simp only [numerical_limit, hk, numerical_limit_loop_succ]

/-- Function `f_1` on a finite argument. -/
theorem f_1_fin (q : ℚ) : f_1 (fin q) = fin (q * q - 2 * q - 1) := by
  simp [f_1]

/-- Function `f_2` on a finite argument other than `1/2`. -/
theorem f_2_fin (q : ℚ) (hq : 2 * q - 1 ≠ 0) : f_2 (fin q) = fin (q / (2 * q - 1)) := by
  simp only [f_2, fin_mul_fin, fin_sub_fin]
  exact fin_div_fin _ hq

end Limit

/-! ## Claims about the derivative sequences and the limit estimator -/

open NumericalDerivative Limit

/-- C1: `central_difference` does not use the function it is given. At `x = 0`, `h = 1`,
`n = 1` and the supplied function `d(x) = x`, the only element of the result is `-2`, the
central-difference quotient of the file-level `f`, whereas the central-difference quotient of
the supplied function at step `h / 2^0` is `1`. -/
theorem central_difference_ignores_supplied_function :
    central_difference (fin 0) (fin 1) 1 (fun x => x) = [fin (-2)] ∧
      ((fun x : Dbl => x) (fin 0 + fin 1 / fin (2 ^ 0))
          - (fun x : Dbl => x) (fin 0 - fin 1 / fin (2 ^ 0)))
        / (fin 2 * (fin 1 / fin (2 ^ 0))) = fin 1 := by
  constructor
  · simp [central_difference, central_difference_loop, f]
    rw [fin_div_fin _ (by norm_num)]
    norm_num
  · simp [fin_div_fin]

/-- C5: for every `n >= 0`, `finite_difference(x, h, n, f)` and
`central_difference(x, h, n, f)` both have length exactly `n`, and for `n = 0` both are the
empty sequence. -/
theorem difference_sequences_length (f : Dbl → Dbl) (x h : Dbl) (n : Int) (hn : 0 ≤ n) :
    ((finite_difference x h n f).length : Int) = n ∧
      ((central_difference x h n f).length : Int) = n ∧
      finite_difference x h 0 f = [] ∧ central_difference x h 0 f = [] := by
  simp [finite_difference_eq, central_difference_eq, Int.toNat_of_nonneg hn]

theorem difference_sequences_length_witness :
    ((finite_difference (fin 2) (fin 1) 3 f).length : Int) = 3 ∧
      ((central_difference (fin 2) (fin 1) 3 f).length : Int) = 3 ∧
      finite_difference (fin 2) (fin 1) 0 f = [] ∧ central_difference (fin 2) (fin 1) 0 f = [] :=
  difference_sequences_length f (fin 2) (fin 1) 3 (by decide)

/-- C9: for every `a`, `step`, every function `f` (no assumption on it: it may be undefined
everywhere) and every `tol >= 0`, `numerical_limit(a, 0, step, tol, f)` returns `0`: with zero
iterations the loop leaves `l_limit` and `r_limit` at their initial value `0`, no value of `f`
enters the result, and the tolerance check passes. -/
theorem numerical_limit_zero_iterations (a step tol : Dbl) (f : Dbl → Dbl)
    (htol : Dbl.le (fin 0) tol = true) :
    numerical_limit_loop f a (0 : Int).toNat ⟨step, fin 0, fin 0⟩ = ⟨step, fin 0, fin 0⟩ ∧
      numerical_limit a 0 step tol f = fin 0 := by
  refine ⟨rfl, ?_⟩
  simp only [numerical_limit, Int.toNat_zero, numerical_limit_loop, fin_sub_fin, sub_self,
    abs_fin, abs_zero, htol, if_true, fin_add_fin, add_zero]
  rw [fin_div_fin _ (by norm_num), zero_div]

theorem numerical_limit_zero_iterations_witness :
    numerical_limit_loop (fun _ => nan) (fin (1 / 2)) (0 : Int).toNat
        ⟨fin (1 / 10), fin 0, fin 0⟩ = ⟨fin (1 / 10), fin 0, fin 0⟩ ∧
      numerical_limit (fin (1 / 2)) 0 (fin (1 / 10)) (fin (1 / 1000)) (fun _ => nan) = fin 0 :=
  numerical_limit_zero_iterations (fin (1 / 2)) (fin (1 / 10)) (fin (1 / 1000)) (fun _ => nan)
    (by simp)

namespace Limit

/-- Function `f_3` on a finite argument other than `5/4`. -/
theorem f_3_fin (q : ℚ) (hq : 4 * q - 5 ≠ 0) :
    f_3 (fin q) = fin ((q * q - 3) / (4 * q - 5)) := by
  simp only [f_3, fin_mul_fin, fin_sub_fin]
  exact fin_div_fin _ hq

/-- The closed form on finite arguments when the two final probes have finite values. -/
theorem numerical_limit_fin_probes (a step tol l r : ℚ) (f : Dbl → Dbl) (n : Int) (hn : 1 ≤ n)
    (hl : f (fin (a - step / 2 ^ (n - 1).toNat)) = fin l)
    (hr : f (fin (a + step / 2 ^ (n - 1).toNat)) = fin r) :
    numerical_limit (fin a) n (fin step) (fin tol) f =
      if |r - l| ≤ tol then fin ((l + r) / 2) else nan := by
  have h2 : ((2 : ℚ) ^ (n - 1).toNat) ≠ 0 := by positivity
  rw [numerical_limit_eq _ _ _ _ _ hn, fin_div_fin _ h2]
  simp only [fin_add_fin, fin_sub_fin, hl, hr, abs_fin, le_fin_fin, decide_eq_true_eq]
  rw [fin_div_fin _ (by norm_num)]

end Limit

/-- C12: `f_1` of limit.cpp does not return `x^2 + 2x - 1`, the function its documentation
comment names: at `x = 1` it returns `1 - 2 - 1 = -2`, whereas `1^2 + 2*1 - 1 = 2`. -/
theorem f_1_differs_from_documented_formula :
    f_1 (fin 1) = fin (-2) ∧ f_1 (fin 1) ≠ fin (1 ^ 2 + 2 * 1 - 1) := by
  rw [f_1_fin]
  constructor
  · norm_num
  · intro h
    injection h with h
    norm_num at h

namespace NumericalDerivative

/-- One more iteration puts the quotient at step `h` in front of the sequence for `h / 2`. -/
theorem finite_difference_succ (x h : Dbl) (n : Int) (hn : 0 ≤ n) (g : Dbl → Dbl) :
    finite_difference x h (n + 1) g =
      [(g (x + h) - g x) / h] ++ finite_difference x (h / fin 2) n g := by
  have hk : (n + 1).toNat = n.toNat + 1 := by omega
  rw [finite_difference, hk, finite_difference_loop, finite_difference_loop_eq,
    finite_difference_eq]
  simp

/-- The first `m` elements of a forward-difference sequence are the sequence for `m`. -/
theorem finite_difference_take (x h : Dbl) (m n : Int) (hmn : m ≤ n) (g : Dbl → Dbl) :
    (finite_difference x h n g).take m.toNat = finite_difference x h m g := by
  have hk : min m.toNat n.toNat = m.toNat := by omega
  rw [finite_difference_eq, finite_difference_eq, ← List.map_take, List.take_range, hk]

/-- One more iteration puts the quotient of the file-level `f` at step `h` in front of the
sequence for `h / 2`, whatever function is supplied. -/
theorem central_difference_succ (x h : Dbl) (n : Int) (hn : 0 ≤ n) (d : Dbl → Dbl) :
    central_difference x h (n + 1) d =
      [(f (x + h) - f (x - h)) / (fin 2 * h)] ++ central_difference x (h / fin 2) n d := by
  have hk : (n + 1).toNat = n.toNat + 1 := by omega
  rw [central_difference, hk, central_difference_loop, central_difference_loop_eq,
    central_difference_eq]
  simp

/-- The first `m` elements of a central-difference sequence are the sequence for `m`. -/
theorem central_difference_take (x h : Dbl) (m n : Int) (hmn : m ≤ n) (d : Dbl → Dbl) :
    (central_difference x h n d).take m.toNat = central_difference x h m d := by
  have hk : min m.toNat n.toNat = m.toNat := by omega
  rw [central_difference_eq, central_difference_eq, ← List.map_take, List.take_range, hk]

end NumericalDerivative

/-- C15: the shift and prefix equations hold for `finite_difference` and every supplied
function `g`; for `central_difference` they hold with the quotient of the file-level `f`,
whatever function `d` is supplied, and the shift equation fails for the quotient of the
supplied function: at `x = 0`, `h = 1`, `n = 0` and `d(x) = x` the result is `[-2]`, not
`[(d(1) - d(-1)) / 2] = [1]`. -/
theorem difference_shift_prefix (x h : Dbl) (g d : Dbl → Dbl) (m n : Nat) :
    finite_difference x h ((n : Int) + 1) g =
      [(g (x + h) - g x) / h] ++ finite_difference x (h / fin 2) n g ∧
    (finite_difference x h ((m + n : Nat) : Int) g).take m = finite_difference x h m g ∧
    central_difference x h ((n : Int) + 1) d =
      [(f (x + h) - f (x - h)) / (fin 2 * h)] ++ central_difference x (h / fin 2) n d ∧
    (central_difference x h ((m + n : Nat) : Int) d).take m = central_difference x h m d ∧
    central_difference (fin 0) (fin 1) (0 + 1) (fun x => x) = [fin (-2)] ∧
    [((fun x : Dbl => x) (fin 0 + fin 1) - (fun x : Dbl => x) (fin 0 - fin 1))
        / (fin 2 * fin 1)] ++ central_difference (fin 0) (fin 1 / fin 2) 0 (fun x => x) =
      [fin 1] := by
  refine ⟨finite_difference_succ x h n (by omega) g, ?_,
    central_difference_succ x h n (by omega) d, ?_, ?_, ?_⟩
  · simpa using finite_difference_take x h m ((m + n : Nat) : Int) (by omega) g
  · simpa using central_difference_take x h m ((m + n : Nat) : Int) (by omega) d
  · simp [central_difference, central_difference_loop, f]
    rw [fin_div_fin _ (by norm_num)]
    norm_num
  · simp [central_difference, central_difference_loop]
    rw [fin_div_fin _ (by norm_num)]
    norm_num

/-- C17: a negative iteration count behaves exactly like `0`: for every `n < 0` and every
function `f` (no value of `f` enters the results), `finite_difference` and
`central_difference` return the empty sequence, and `numerical_limit(a, n, step, tol, f)`
returns what it returns for `n = 0`: the number `0` for every `tol >= 0` and the sentinel
for every `tol < 0`. -/
theorem negative_iteration_count (a x h step : Dbl) (f : Dbl → Dbl) (n : Int) (hn : n < 0) :
    finite_difference x h n f = [] ∧ central_difference x h n f = [] ∧
    (∀ tol : Dbl, numerical_limit a n step tol f = numerical_limit a 0 step tol f) ∧
    (∀ tol : Dbl, Dbl.le (fin 0) tol = true → numerical_limit a n step tol f = fin 0) ∧
    (∀ t : ℚ, t < 0 → numerical_limit a n step (fin t) f = nan) ∧
    numerical_limit a n step ninf f = nan := by
  have hk : n.toNat = 0 := by omega
  refine ⟨?_, ?_, ?_, ?_, ?_, ?_⟩
  · simp [finite_difference, hk, finite_difference_loop]
  · simp [central_difference, hk, central_difference_loop]
  · intro tol
    simp only [numerical_limit, hk, Int.toNat_zero]
  · intro tol htol
    simp only [numerical_limit, hk, numerical_limit_loop, fin_sub_fin, sub_self, abs_fin,
      abs_zero, htol, if_true, fin_add_fin, add_zero]
    rw [fin_div_fin _ (by norm_num), zero_div]
  · intro t ht
    simp only [numerical_limit, hk, numerical_limit_loop, fin_sub_fin, sub_self, abs_fin,
      abs_zero, le_fin_fin]
    rw [if_neg]
    simpa using ht
  · simp [numerical_limit, hk, numerical_limit_loop, Dbl.le]

theorem negative_iteration_count_witness :
    finite_difference (fin 2) (fin (1 / 10)) (-3) (fun _ => nan) = [] ∧
    central_difference (fin 2) (fin (1 / 10)) (-3) (fun _ => nan) = [] ∧
    (∀ tol : Dbl, numerical_limit (fin (1 / 2)) (-3) (fin (1 / 10)) tol (fun _ => nan) =
      numerical_limit (fin (1 / 2)) 0 (fin (1 / 10)) tol (fun _ => nan)) ∧
    (∀ tol : Dbl, Dbl.le (fin 0) tol = true →
      numerical_limit (fin (1 / 2)) (-3) (fin (1 / 10)) tol (fun _ => nan) = fin 0) ∧
    (∀ t : ℚ, t < 0 →
      numerical_limit (fin (1 / 2)) (-3) (fin (1 / 10)) (fin t) (fun _ => nan) = nan) ∧
    numerical_limit (fin (1 / 2)) (-3) (fin (1 / 10)) ninf (fun _ => nan) = nan :=
  negative_iteration_count (fin (1 / 2)) (fin 2) (fin (1 / 10)) (fin (1 / 10)) (fun _ => nan)
    (-3) (by decide)

end ExactModel

section Binary64Model

open Double Binary64 Binary64.NumericalDerivative Binary64.Limit

/-! ## Structure of the loops over binary64 -/

namespace Binary64

theorem halved_succ (k : Nat) (h : Double) : halved (k + 1) h = halved k h / fin 2 := by
  induction k generalizing h with
  | zero => rfl
  | succ k ih => rw [halved, ih (h / fin 2)]; rfl

theorem halved_add (j k : Nat) (h : Double) : halved (j + k) h = halved k (halved j h) := by
  induction j generalizing h with
  | zero => simp [halved]
  | succ j ih => rw [Nat.add_right_comm, halved, ih]; rfl

namespace NumericalDerivative

theorem finite_difference_loop_halved (f : Double → Double) (x : Double) (k : Nat) (h : Double)
    (acc : List Double) :
    finite_difference_loop f x k h acc =
      acc ++ (List.range k).map (fun i => (f (x + halved i h) - f x) / halved i h) := by
  induction k generalizing h acc with
  | zero => simp [finite_difference_loop]
  | succ k ih =>
    rw [finite_difference_loop, ih, List.range_succ_eq_map, List.map_cons, List.map_map]
    simp [Function.comp_def, halved]

theorem central_difference_loop_halved (x : Double) (k : Nat) (h : Double) (acc : List Double) :
    central_difference_loop x k h acc =
      acc ++ (List.range k).map (fun i =>
        (f (x + halved i h) - f (x - halved i h)) / (fin 2 * halved i h)) := by
  induction k generalizing h acc with
  | zero => simp [central_difference_loop]
  | succ k ih =>
    rw [central_difference_loop, ih, List.range_succ_eq_map, List.map_cons, List.map_map]
    simp [Function.comp_def, halved]

theorem finite_difference_halved (x h : Double) (n : Int) (f : Double → Double) :
    finite_difference x h n f =
      (List.range n.toNat).map (fun i => (f (x + halved i h) - f x) / halved i h) := by
  simp [finite_difference, finite_difference_loop_halved]

theorem central_difference_halved (x h : Double) (n : Int) (d : Double → Double) :
    central_difference x h n d =
      (List.range n.toNat).map (fun i =>
        (f (x + halved i h) - f (x - halved i h)) / (fin 2 * halved i h)) := by
  simp [central_difference, central_difference_loop_halved]

theorem finite_difference_divisors_eq (h : Double) (n : Int) :
    finite_difference_divisors h n = (List.range n.toNat).map (fun i => halved i h) := by
  unfold finite_difference_divisors
  generalize n.toNat = k
  induction k generalizing h with
  | zero => simp [finite_difference_divisors_loop]
  | succ k ih =>
    rw [finite_difference_divisors_loop, ih, List.range_succ_eq_map, List.map_cons,
      List.map_map]
    simp [Function.comp_def, halved]

theorem central_difference_divisors_eq (h : Double) (n : Int) :
    central_difference_divisors h n =
      (List.range n.toNat).map (fun i => fin 2 * halved i h) := by
  unfold central_difference_divisors
  generalize n.toNat = k
  induction k generalizing h with
  | zero => simp [central_difference_divisors_loop]
  | succ k ih =>
    rw [central_difference_divisors_loop, ih, List.range_succ_eq_map, List.map_cons,
      List.map_map]
    simp [Function.comp_def, halved]

/-- The guarded loop returns the result of the unguarded one when no divisor is zero. -/
theorem finite_difference_guarded_loop_eq (f : Double → Double) (x : Double) (k : Nat)
    (h : Double) (acc : List Double)
    (hd : ∀ d ∈ finite_difference_divisors_loop k h, d.isZero = false) :
    finite_difference_guarded_loop f x k h acc = some (finite_difference_loop f x k h acc) := by
  induction k generalizing h acc with
  | zero => rfl
  | succ k ih =>
    simp only [finite_difference_divisors_loop, List.mem_cons, forall_eq_or_imp] at hd
    simp only [finite_difference_guarded_loop, finite_difference_loop, checkedDiv, hd.1]
    exact ih _ _ hd.2

theorem central_difference_guarded_loop_eq (x : Double) (k : Nat) (h : Double)
    (acc : List Double)
    (hd : ∀ d ∈ central_difference_divisors_loop k h, d.isZero = false) :
    central_difference_guarded_loop x k h acc = some (central_difference_loop x k h acc) := by
  induction k generalizing h acc with
  | zero => rfl
  | succ k ih =>
    simp only [central_difference_divisors_loop, List.mem_cons, forall_eq_or_imp] at hd
    simp only [central_difference_guarded_loop, central_difference_loop, checkedDiv, hd.1]
    exact ih _ _ hd.2

end NumericalDerivative

namespace Limit

theorem numerical_limit_loop_halved (f : Double → Double) (a : Double) (k : Nat)
    (s : LimitState) :
    numerical_limit_loop f a (k + 1) s =
      { l_limit := f (a - halved k s.step),
        r_limit := f (a + halved k s.step),
        step := halved (k + 1) s.step } := by
  induction k generalizing s with
  | zero => simp [numerical_limit_loop, halved]
  | succ k ih =>
    rw [numerical_limit_loop, ih]
    simp [halved]

/-- With at least one iteration, the result is decided by the two probes of the last one,
taken at the distance the step has after `n - 1` halvings. -/
theorem numerical_limit_halved (a step tol : Double) (f : Double → Double) (n : Int)
    (hn : 1 ≤ n) :
    numerical_limit a n step tol f =
      if Double.le (Double.abs (f (a + halved (n - 1).toNat step)
          - f (a - halved (n - 1).toNat step))) tol then
        (f (a - halved (n - 1).toNat step) + f (a + halved (n - 1).toNat step)) / fin 2
      else nan := by
  have hk : n.toNat = (n - 1).toNat + 1 := by omega
  simp only [numerical_limit, hk, numerical_limit_loop_halved]

end Limit

end Binary64

/-! ## Special values of binary64 -/

namespace Double

theorem ofRat_ne_nan (q : ℚ) : ofRat q ≠ nan := by
  unfold ofRat
  split_ifs <;> simp

theorem add_ne_nan {x y : Double} (hx : x.isFinite = true) (hy : y.isFinite = true) :
    x + y ≠ nan := by
  show add x y ≠ nan
  cases x <;> cases y <;> simp_all [add, isFinite, ofRat_ne_nan]

theorem sub_ne_nan {x y : Double} (hx : x.isFinite = true) (hy : y.isFinite = true) :
    x - y ≠ nan := by
  show add x (neg y) ≠ nan
  cases x <;> cases y <;> simp_all [add, neg, isFinite, ofRat_ne_nan] <;>
    split_ifs <;> simp [add, ofRat_ne_nan]

theorem abs_ne_nan {x : Double} (hx : x ≠ nan) : abs x ≠ nan := by
  cases x <;> simp_all [abs]

theorem div_two_ne_nan {x : Double} (hx : x ≠ nan) : x / fin 2 ≠ nan := by
  show div x (fin 2) ≠ nan
  cases x <;> simp_all [div, isFinite, toRat, zero, inf, ofRat_ne_nan] <;>
    split_ifs <;> simp [ofRat_ne_nan]

/-- For ordered operands, `x <= y` fails exactly when `y < x`. -/
theorem le_eq_false_iff_lt {x y : Double} (hx : x ≠ nan) (hy : y ≠ nan) :
    le x y = false ↔ lt y x = true := by
  cases x <;> cases y <;> simp_all [le, lt]

theorem le_eq_false_of_lt {x y : Double} (h : lt y x = true) : le x y = false := by
  cases x <;> cases y <;> simp_all [le, lt]

theorem le_transitive {x y z : Double} (hxy : le x y = true) (hyz : le y z = true) :
    le x z = true := by
  cases x <;> cases y <;> cases z <;> simp_all [le, toRat] <;> linarith

end Double

namespace Double

theorem neg_fin_isFinite (q : ℚ) : (neg (fin q)).isFinite = true := by
  simp only [neg]; split_ifs <;> rfl

theorem isFinite_of_gap_le {l r tol : Double} (htol : tol.isFinite = true)
    (h : le (abs (r - l)) tol = true) : l.isFinite = true ∧ r.isFinite = true := by
  have hsub : r - l = add r (neg l) := rfl
  rw [hsub] at h
  cases l with
  | fin q =>
    have := neg_fin_isFinite q
    cases r <;> cases tol <;> cases hn : neg (fin q) <;>
      simp_all [le, Double.abs, add, isFinite]
  | nzero => cases r <;> cases tol <;> simp_all [le, Double.abs, add, neg, isFinite]
  | pinf => cases r <;> cases tol <;> simp_all [le, Double.abs, add, neg, isFinite]
  | ninf => cases r <;> cases tol <;> simp_all [le, Double.abs, add, neg, isFinite]
  | nan => cases r <;> cases tol <;> simp_all [le, Double.abs, add, neg, isFinite]

end Double

/-! ## Rounding theory -/

namespace Double

theorem pow2_eq_zpow (e : Int) : pow2 e = (2 : ℚ) ^ e := by
  unfold pow2
  rw [Rat.mkRat_eq_div]
  push_cast
  rcases le_total 0 e with h | h
  · have h1 : (-e).toNat = 0 := by omega
    rw [h1, pow_zero, div_one, ← zpow_natCast, Int.toNat_of_nonneg h]
  · have h1 : e.toNat = 0 := by omega
    have h2 : ((-e).toNat : Int) = -e := Int.toNat_of_nonneg (by omega)
    rw [h1, pow_zero, one_div, ← zpow_natCast, h2, zpow_neg, inv_inv]

theorem pow2_pos (e : Int) : 0 < pow2 e := by
  rw [pow2_eq_zpow]; positivity

theorem pow2_add (a b : Int) : pow2 (a + b) = pow2 a * pow2 b := by
  simp only [pow2_eq_zpow]
  exact zpow_add₀ (by norm_num) a b

theorem pow2_le_pow2 {a b : Int} (h : a ≤ b) : pow2 a ≤ pow2 b := by
  simp only [pow2_eq_zpow]
  exact zpow_le_zpow_right₀ (by norm_num) h

theorem pow2_lt_pow2_iff {a b : Int} : pow2 a < pow2 b ↔ a < b := by
  simp only [pow2_eq_zpow]
  exact zpow_lt_zpow_iff_right₀ (by norm_num)

theorem pow2_natCast (n : Nat) : pow2 (n : Int) = (2 : ℚ) ^ n := by
  rw [pow2_eq_zpow, zpow_natCast]

theorem log2Upper_spec (n : Nat) : ∀ (fuel hi : Nat), 1 ≤ hi → n < hi + fuel →
    n < 2 ^ log2Upper n fuel hi := by
  intro fuel
  induction fuel with
  | zero =>
    intro hi _ hf
    simp only [log2Upper]
    exact lt_trans (by omega) (Nat.lt_two_pow hi)
  | succ k ih =>
    intro hi h1 hf
    simp only [log2Upper]
    split_ifs with h
    · exact h
    · exact ih (2 * hi) (by omega) (by omega)

theorem log2Upper_le (n : Nat) (hn : 1 ≤ n) : ∀ (fuel hi : Nat), hi ≤ 2 * n →
    log2Upper n fuel hi ≤ 2 * n := by
  intro fuel
  induction fuel with
  | zero => intro hi h; simpa only [log2Upper] using h
  | succ k ih =>
    intro hi h
    simp only [log2Upper]
    split_ifs with hlt
    · exact h
    · have := Nat.lt_two_pow hi
      exact ih (2 * hi) (by omega)

theorem log2Search_spec (n : Nat) : ∀ (fuel lo hi : Nat), 2 ^ lo ≤ n → n < 2 ^ hi →
    hi ≤ lo + fuel + 1 →
    2 ^ log2Search n fuel lo hi ≤ n ∧ n < 2 ^ (log2Search n fuel lo hi + 1) := by
  intro fuel
  induction fuel with
  | zero =>
    intro lo hi hlo hhi hf
    simp only [log2Search]
    exact ⟨hlo, lt_of_lt_of_le hhi (Nat.pow_le_pow_right (by norm_num) (by omega))⟩
  | succ k ih =>
    intro lo hi hlo hhi hf
    simp only [log2Search]
    split_ifs with h1 h2
    · exact ⟨hlo, lt_of_lt_of_le hhi (Nat.pow_le_pow_right (by norm_num) (by omega))⟩
    · exact ih _ _ h2 hhi (by omega)
    · exact ih _ _ hlo (by omega) (by omega)

theorem log2_spec (n : Nat) (hn : 1 ≤ n) : 2 ^ log2 n ≤ n ∧ n < 2 ^ (log2 n + 1) := by
  unfold log2
  apply log2Search_spec
  · simpa using hn
  · exact log2Upper_spec n n 1 le_rfl (by omega)
  · have := log2Upper_le n hn n 1 (by omega)
    omega

theorem floorLog2_spec (a : ℚ) (ha : 0 < a) :
    pow2 (floorLog2 a) ≤ a ∧ a < pow2 (floorLog2 a + 1) := by
  have hnum : 0 < a.num := Rat.num_pos.mpr ha
  have hden : 0 < a.den := a.den_pos
  obtain ⟨hn1, hn2⟩ := log2_spec a.num.natAbs (by omega)
  obtain ⟨hd1, hd2⟩ := log2_spec a.den hden
  have hnq : (a.num.natAbs : ℚ) = (a.num : ℚ) := by
    rw [Nat.cast_natAbs, abs_of_pos hnum]
  have hdq : (0 : ℚ) < a.den := by exact_mod_cast hden
  have haeq : a = (a.num.natAbs : ℚ) / (a.den : ℚ) := by
    rw [hnq]; exact (Rat.num_div_den a).symm
  have hn1q : (2 : ℚ) ^ log2 a.num.natAbs ≤ (a.num.natAbs : ℚ) := by exact_mod_cast hn1
  have hn2q : (a.num.natAbs : ℚ) < 2 ^ (log2 a.num.natAbs + 1) := by exact_mod_cast hn2
  have hd1q : (2 : ℚ) ^ log2 a.den ≤ (a.den : ℚ) := by exact_mod_cast hd1
  have hd2q : (a.den : ℚ) < 2 ^ (log2 a.den + 1) := by exact_mod_cast hd2
  set A := log2 a.num.natAbs with hA
  set B := log2 a.den with hB
  set N : ℚ := (a.num.natAbs : ℚ) with hN
  set D : ℚ := (a.den : ℚ) with hD
  have hpA : (0 : ℚ) < 2 ^ A := by positivity
  have hpB : (0 : ℚ) < 2 ^ B := by positivity
  have e0 : pow2 ((A : Int) - (B : Int)) = (2 : ℚ) ^ A / 2 ^ B := by
    rw [pow2_eq_zpow, zpow_sub₀ (by norm_num), zpow_natCast, zpow_natCast]
  have hup : a < pow2 ((A : Int) - (B : Int) + 1) := by
    rw [pow2_add, e0, haeq]
    have : pow2 1 = 2 := by rw [pow2_eq_zpow]; norm_num
    rw [this, div_lt_iff₀ hdq]
    have h3 : (2 : ℚ) ^ A / 2 ^ B * 2 * D = 2 ^ (A + 1) * (D / 2 ^ B) := by
      rw [pow_succ]; field_simp
    rw [h3]
    have h4 : (1 : ℚ) ≤ D / 2 ^ B := by rw [le_div_iff₀ hpB]; linarith
    nlinarith
  have hlow : pow2 ((A : Int) - (B : Int) - 1) < a := by
    have : pow2 ((A : Int) - (B : Int) - 1) = (2 : ℚ) ^ A / 2 ^ (B + 1) := by
      rw [pow2_eq_zpow, zpow_sub₀ (by norm_num), zpow_sub₀ (by norm_num), zpow_natCast,
        zpow_natCast, pow_succ]
      field_simp
    rw [this, haeq, div_lt_div_iff₀ (by positivity) hdq]
    have hN0 : (0 : ℚ) < N := lt_of_lt_of_le hpA hn1q
    nlinarith
  unfold floorLog2
  simp only
  split_ifs with h
  · exact ⟨h, hup⟩
  · refine ⟨hlow.le, ?_⟩
    rw [sub_add_cancel]
    exact lt_of_not_le h

theorem floorLog2_unique (a : ℚ) (e : Int) (h1 : pow2 e ≤ a) (h2 : a < pow2 (e + 1)) :
    floorLog2 a = e := by
  have ha : 0 < a := lt_of_lt_of_le (pow2_pos e) h1
  obtain ⟨h3, h4⟩ := floorLog2_spec a ha
  have h5 : e < floorLog2 a + 1 := pow2_lt_pow2_iff.mp (lt_of_le_of_lt h1 h4)
  have h6 : floorLog2 a < e + 1 := pow2_lt_pow2_iff.mp (lt_of_le_of_lt h3 h2)
  omega

theorem floorLog2_mono {a b : ℚ} (ha : 0 < a) (hab : a ≤ b) : floorLog2 a ≤ floorLog2 b := by
  obtain ⟨h1, _⟩ := floorLog2_spec a ha
  obtain ⟨_, h4⟩ := floorLog2_spec b (lt_of_lt_of_le ha hab)
  have : floorLog2 a < floorLog2 b + 1 := pow2_lt_pow2_iff.mp (lt_of_le_of_lt (h1.trans hab) h4)
  omega

end Double

namespace Double

theorem roundHalfEven_cases (n d : Nat) (hd : 0 < d) :
    ∃ (m : Nat) (ρ : ℚ), (n : ℚ) / d = m + ρ ∧ 0 ≤ ρ ∧ ρ < 1 ∧
      ((ρ < 1 / 2 ∧ roundHalfEven n d = m) ∨ (1 / 2 < ρ ∧ roundHalfEven n d = m + 1) ∨
       (ρ = 1 / 2 ∧ m % 2 = 0 ∧ roundHalfEven n d = m) ∨
       (ρ = 1 / 2 ∧ m % 2 = 1 ∧ roundHalfEven n d = m + 1)) := by
  have hdq : (0 : ℚ) < d := by exact_mod_cast hd
  have hsplit : (n : ℚ) = d * (n / d : Nat) + (n % d : Nat) := by
    exact_mod_cast (Nat.div_add_mod n d).symm
  have hr : ((n % d : Nat) : ℚ) < d := by exact_mod_cast Nat.mod_lt n hd
  refine ⟨n / d, ((n % d : Nat) : ℚ) / d, ?_, by positivity, (div_lt_one hdq).mpr hr, ?_⟩
  · rw [div_eq_iff hdq.ne', add_mul, div_mul_cancel₀ _ hdq.ne']
    linarith
  · have e1 : ((n % d : Nat) : ℚ) / d < 1 / 2 ↔ 2 * (n % d) < d := by
      rw [div_lt_iff₀ hdq]
      constructor
      · intro h; have : ((2 * (n % d) : Nat) : ℚ) < d := by push_cast; linarith
        exact_mod_cast this
      · intro h; have : ((2 * (n % d) : Nat) : ℚ) < d := by exact_mod_cast h
        push_cast at this; linarith
    have e2 : 1 / 2 < ((n % d : Nat) : ℚ) / d ↔ d < 2 * (n % d) := by
      rw [lt_div_iff₀ hdq]
      constructor
      · intro h; have : (d : ℚ) < ((2 * (n % d) : Nat) : ℚ) := by push_cast; linarith
        exact_mod_cast this
      · intro h; have : (d : ℚ) < ((2 * (n % d) : Nat) : ℚ) := by exact_mod_cast h
        push_cast at this; linarith
    unfold roundHalfEven
    simp only
    by_cases h1 : 2 * (n % d) < d
    · left; exact ⟨e1.mpr h1, by rw [if_pos h1]⟩
    · by_cases h2 : d < 2 * (n % d)
      · right; left; exact ⟨e2.mpr h2, by rw [if_neg h1, if_pos h2]⟩
      · have h3 : ((n % d : Nat) : ℚ) / d = 1 / 2 := by
          apply le_antisymm
          · exact not_lt.mp (fun h => h2 (e2.mp h))
          · exact not_lt.mp (fun h => h1 (e1.mp h))
        by_cases h4 : n / d % 2 = 0
        · right; right; left
          exact ⟨h3, h4, by rw [if_neg h1, if_neg h2, if_pos h4]⟩
        · right; right; right
          exact ⟨h3, by omega, by rw [if_neg h1, if_neg h2, if_neg h4]⟩

theorem roundHalfEven_rat_cases (s : ℚ) (hs : 0 ≤ s) :
    ∃ (m : Nat) (ρ : ℚ), s = m + ρ ∧ 0 ≤ ρ ∧ ρ < 1 ∧
      ((ρ < 1 / 2 ∧ roundHalfEven s.num.natAbs s.den = m) ∨
       (1 / 2 < ρ ∧ roundHalfEven s.num.natAbs s.den = m + 1) ∨
       (ρ = 1 / 2 ∧ m % 2 = 0 ∧ roundHalfEven s.num.natAbs s.den = m) ∨
       (ρ = 1 / 2 ∧ m % 2 = 1 ∧ roundHalfEven s.num.natAbs s.den = m + 1)) := by
  have hnum : 0 ≤ s.num := Rat.num_nonneg.mpr hs
  have hnq : (s.num.natAbs : ℚ) = (s.num : ℚ) := by
    rw [Nat.cast_natAbs, abs_of_nonneg hnum]
  have hseq : (s.num.natAbs : ℚ) / (s.den : ℚ) = s := by
    rw [hnq]; exact Rat.num_div_den s
  have := roundHalfEven_cases s.num.natAbs s.den s.den_pos
  rwa [hseq] at this

theorem roundHalfEven_rat_natCast (k : Nat) :
    roundHalfEven (k : ℚ).num.natAbs (k : ℚ).den = k := by
  simp [roundHalfEven, Nat.mod_one]

theorem roundHalfEven_rat_mono {s t : ℚ} (hs : 0 ≤ s) (hst : s ≤ t) :
    roundHalfEven s.num.natAbs s.den ≤ roundHalfEven t.num.natAbs t.den := by
  obtain ⟨m1, r1, e1, p1, q1, c1⟩ := roundHalfEven_rat_cases s hs
  obtain ⟨m2, r2, e2, p2, q2, c2⟩ := roundHalfEven_rat_cases t (hs.trans hst)
  have hm : m1 ≤ m2 := by
    have : (m1 : ℚ) < m2 + 1 := by linarith
    have : m1 < m2 + 1 := by exact_mod_cast this
    omega
  rcases Nat.lt_or_ge m1 m2 with hlt | hge
  · have a1 : roundHalfEven s.num.natAbs s.den ≤ m1 + 1 := by
      rcases c1 with ⟨_, h⟩ | ⟨_, h⟩ | ⟨_, _, h⟩ | ⟨_, _, h⟩ <;> omega
    have a2 : m2 ≤ roundHalfEven t.num.natAbs t.den := by
      rcases c2 with ⟨_, h⟩ | ⟨_, h⟩ | ⟨_, _, h⟩ | ⟨_, _, h⟩ <;> omega
    omega
  · have hmm : m1 = m2 := le_antisymm hm hge
    subst hmm
    have hr : r1 ≤ r2 := by linarith
    rcases c1 with ⟨a, h⟩ | ⟨a, h⟩ | ⟨a, b, h⟩ | ⟨a, b, h⟩ <;>
    rcases c2 with ⟨a', h'⟩ | ⟨a', h'⟩ | ⟨a', b', h'⟩ | ⟨a', b', h'⟩ <;>
    first
      | omega
      | (exfalso; linarith)

theorem ulpExp_mono {a b : ℚ} (ha : 0 < a) (hab : a ≤ b) : ulpExp a ≤ ulpExp b := by
  have := floorLog2_mono ha hab
  unfold ulpExp
  omega

theorem roundMag_nonneg (a : ℚ) : 0 ≤ roundMag a := by
  unfold roundMag
  exact mul_nonneg (Nat.cast_nonneg _) (pow2_pos _).le

theorem roundMag_of_scaled (a : ℚ) (k : Nat) (h : a / pow2 (ulpExp a) = k) :
    roundMag a = a := by
  unfold roundMag
  rw [h, roundHalfEven_rat_natCast, ← h, div_mul_cancel₀ _ (pow2_pos _).ne']

theorem scaled_of_roundMag (a : ℚ) (h : roundMag a = a) :
    a / pow2 (ulpExp a) =
      (roundHalfEven (a / pow2 (ulpExp a)).num.natAbs (a / pow2 (ulpExp a)).den : Nat) := by
  rw [div_eq_iff (pow2_pos _).ne']
  exact h.symm

theorem pow2_53 : pow2 53 = 2 ^ 53 := pow2_natCast 53

theorem pow2_52 : pow2 52 = 2 ^ 52 := pow2_natCast 52

theorem scaled_lt (a : ℚ) (ha : 0 < a) : a / pow2 (ulpExp a) < ((2 ^ 53 : Nat) : ℚ) := by
  obtain ⟨_, h2⟩ := floorLog2_spec a ha
  rw [div_lt_iff₀ (pow2_pos _)]
  have h3 : pow2 (floorLog2 a + 1) ≤ pow2 (53 + ulpExp a) :=
    pow2_le_pow2 (by unfold ulpExp; omega)
  rw [pow2_add 53, pow2_53] at h3
  push_cast
  linarith

theorem scaled_ge (a : ℚ) (ha : 0 < a) (he : -1022 ≤ floorLog2 a) :
    ((2 ^ 52 : Nat) : ℚ) ≤ a / pow2 (ulpExp a) := by
  obtain ⟨h1, _⟩ := floorLog2_spec a ha
  rw [le_div_iff₀ (pow2_pos _)]
  have h3 : pow2 (52 + ulpExp a) = pow2 (floorLog2 a) := by
    congr 1; unfold ulpExp; omega
  rw [pow2_add, pow2_52] at h3
  push_cast
  linarith

theorem roundMag_le_top (a : ℚ) (ha : 0 < a) : roundMag a ≤ pow2 (53 + ulpExp a) := by
  have hs : 0 ≤ a / pow2 (ulpExp a) := (div_pos ha (pow2_pos _)).le
  have h := roundHalfEven_rat_mono hs (scaled_lt a ha).le
  rw [roundHalfEven_rat_natCast] at h
  have hq : ((roundHalfEven (a / pow2 (ulpExp a)).num.natAbs (a / pow2 (ulpExp a)).den : Nat) : ℚ)
      ≤ ((2 ^ 53 : Nat) : ℚ) := by exact_mod_cast h
  unfold roundMag
  rw [pow2_add, pow2_53]
  push_cast at hq
  exact mul_le_mul_of_nonneg_right hq (pow2_pos _).le

theorem roundMag_ge (a : ℚ) (ha : 0 < a) (he : -1022 ≤ floorLog2 a) :
    pow2 (floorLog2 a) ≤ roundMag a := by
  have hs : (0 : ℚ) ≤ ((2 ^ 52 : Nat) : ℚ) := Nat.cast_nonneg _
  have h := roundHalfEven_rat_mono hs (scaled_ge a ha he)
  rw [roundHalfEven_rat_natCast] at h
  have hq : ((2 ^ 52 : Nat) : ℚ) ≤
      ((roundHalfEven (a / pow2 (ulpExp a)).num.natAbs (a / pow2 (ulpExp a)).den : Nat) : ℚ) := by
    exact_mod_cast h
  have h3 : pow2 (floorLog2 a) = pow2 (52 + ulpExp a) := by
    congr 1; unfold ulpExp; omega
  unfold roundMag
  rw [h3, pow2_add, pow2_52]
  push_cast at hq
  exact mul_le_mul_of_nonneg_right hq (pow2_pos _).le

theorem roundMag_mono {a b : ℚ} (ha : 0 < a) (hab : a ≤ b) : roundMag a ≤ roundMag b := by
  have hb : 0 < b := lt_of_lt_of_le ha hab
  rcases (ulpExp_mono ha hab).lt_or_eq with hlt | heq
  · have he : -1022 ≤ floorLog2 b := by
      unfold ulpExp at hlt; omega
    have h1 := roundMag_le_top a ha
    have h2 := roundMag_ge b hb he
    have h3 : pow2 (53 + ulpExp a) ≤ pow2 (floorLog2 b) :=
      pow2_le_pow2 (by unfold ulpExp at hlt ⊢; omega)
    linarith
  · unfold roundMag
    rw [← heq]
    have hs : 0 ≤ a / pow2 (ulpExp a) := (div_pos ha (pow2_pos _)).le
    have hst : a / pow2 (ulpExp a) ≤ b / pow2 (ulpExp a) :=
      div_le_div_of_nonneg_right hab (pow2_pos _).le
    have h := roundHalfEven_rat_mono hs hst
    have hq : ((roundHalfEven (a / pow2 (ulpExp a)).num.natAbs
        (a / pow2 (ulpExp a)).den : Nat) : ℚ) ≤
        ((roundHalfEven (b / pow2 (ulpExp a)).num.natAbs
        (b / pow2 (ulpExp a)).den : Nat) : ℚ) := by exact_mod_cast h
    exact mul_le_mul_of_nonneg_right hq (pow2_pos _).le

theorem floorLog2_two_mul (a : ℚ) (ha : 0 < a) : floorLog2 (2 * a) = floorLog2 a + 1 := by
  obtain ⟨h1, h2⟩ := floorLog2_spec a ha
  have e1 : pow2 1 = 2 := by rw [pow2_eq_zpow]; norm_num
  apply floorLog2_unique
  · rw [pow2_add, e1]; linarith
  · rw [pow2_add, e1]; linarith

theorem roundMag_two_mul (a : ℚ) (ha : 0 < a) (h : roundMag a = a) :
    roundMag (2 * a) = 2 * a := by
  have hk := scaled_of_roundMag a h
  have he := floorLog2_two_mul a ha
  have e1 : pow2 1 = 2 := by rw [pow2_eq_zpow]; norm_num
  rcases le_or_lt (-1022) (floorLog2 a) with hn | hs
  · have hp : ulpExp (2 * a) = ulpExp a + 1 := by unfold ulpExp; omega
    refine roundMag_of_scaled (2 * a)
      (roundHalfEven (a / pow2 (ulpExp a)).num.natAbs (a / pow2 (ulpExp a)).den) ?_
    rw [hp, pow2_add, e1, ← hk]
    field_simp [(pow2_pos (ulpExp a)).ne']
    ring
  · have hp : ulpExp (2 * a) = ulpExp a := by unfold ulpExp; omega
    refine roundMag_of_scaled (2 * a)
      (2 * roundHalfEven (a / pow2 (ulpExp a)).num.natAbs (a / pow2 (ulpExp a)).den) ?_
    rw [hp]
    push_cast
    rw [← hk]
    ring

theorem roundMag_half (a : ℚ) (ha : 0 < a) (h : roundMag a = a) (he : -1021 ≤ floorLog2 a) :
    roundMag (a / 2) = a / 2 := by
  have hk := scaled_of_roundMag a h
  have e1 : pow2 1 = 2 := by rw [pow2_eq_zpow]; norm_num
  have he2 : floorLog2 a = floorLog2 (a / 2) + 1 := by
    rw [← floorLog2_two_mul (a / 2) (by positivity)]
    congr 1; ring
  have hp : ulpExp a = ulpExp (a / 2) + 1 := by unfold ulpExp; omega
  refine roundMag_of_scaled (a / 2)
    (roundHalfEven (a / pow2 (ulpExp a)).num.natAbs (a / pow2 (ulpExp a)).den) ?_
  rw [← hk, hp, pow2_add, e1]
  have := (pow2_pos (ulpExp (a / 2))).ne'
  field_simp
  left; ring

end Double

namespace Double

theorem toRat_ofRat_pos (q : ℚ) (hq : 0 < q) (hf : (ofRat q).isFinite = true) :
    (ofRat q).toRat = roundMag q := by
  unfold ofRat at hf ⊢
  rw [abs_of_pos hq] at hf ⊢
  rw [if_neg hq.ne'] at hf ⊢
  split_ifs at hf ⊢ with h1 h2
  · simp [isFinite] at hf
  · simp [toRat, h2]
  · simp [toRat]

theorem toRat_ofRat_neg (q : ℚ) (hq : q < 0) (hf : (ofRat q).isFinite = true) :
    (ofRat q).toRat = -roundMag (-q) := by
  unfold ofRat at hf ⊢
  rw [abs_of_neg hq] at hf ⊢
  rw [if_neg hq.ne] at hf ⊢
  have hn : ¬ (0 < q) := not_lt.mpr hq.le
  split_ifs at hf ⊢ with h1 h2
  · simp [isFinite] at hf
  · simp [toRat, h2]
  · simp [toRat]

theorem ofRat_zero : ofRat 0 = fin 0 := by
  unfold ofRat
  rw [if_pos rfl]

theorem valid_fixed (d : Double) (hv : d.valid = true) :
    d.toRat = 0 ∨ roundMag |d.toRat| = |d.toRat| := by
  cases d with
  | fin x =>
    simp only [valid, decide_eq_true_eq] at hv
    simp only [toRat]
    rcases lt_trichotomy x 0 with hx | hx | hx
    · right
      have hf : (ofRat x).isFinite = true := by rw [hv]; rfl
      have := toRat_ofRat_neg x hx hf
      rw [hv] at this
      simp only [toRat] at this
      rw [abs_of_neg hx]
      linarith
    · left; exact hx
    · right
      have hf : (ofRat x).isFinite = true := by rw [hv]; rfl
      have := toRat_ofRat_pos x hx hf
      rw [hv] at this
      simp only [toRat] at this
      rw [abs_of_pos hx]
      exact this.symm
  | nzero => left; rfl
  | pinf => left; rfl
  | ninf => left; rfl
  | nan => left; rfl

theorem fixed_two_mul (y : ℚ) (hy : y = 0 ∨ roundMag |y| = |y|) :
    2 * y = 0 ∨ roundMag |2 * y| = |2 * y| := by
  rcases hy with hy | hy
  · left; rw [hy]; ring
  · by_cases h0 : y = 0
    · left; rw [h0]; ring
    · right
      have : |2 * y| = 2 * |y| := by rw [abs_mul]; norm_num
      rw [this]
      exact roundMag_two_mul |y| (abs_pos.mpr h0) hy

theorem toRat_ofRat_ge (y q : ℚ) (hy : y = 0 ∨ roundMag |y| = |y|) (hyq : y ≤ q)
    (hf : (ofRat q).isFinite = true) : y ≤ (ofRat q).toRat := by
  rcases lt_trichotomy q 0 with hq | hq | hq
  · rw [toRat_ofRat_neg q hq hf]
    have hy0 : y < 0 := lt_of_le_of_lt hyq hq
    rcases hy with hy | hy
    · exact absurd hy hy0.ne
    · rw [abs_of_neg hy0] at hy
      have := roundMag_mono (neg_pos.mpr hq) (neg_le_neg hyq)
      linarith
  · rw [hq, ofRat_zero]
    simp only [toRat]
    linarith
  · rw [toRat_ofRat_pos q hq hf]
    rcases le_or_lt y 0 with hy0 | hy0
    · exact hy0.trans (roundMag_nonneg q)
    · rcases hy with hy | hy
      · exact absurd hy hy0.ne'
      · rw [abs_of_pos hy0] at hy
        have := roundMag_mono hy0 hyq
        linarith

theorem toRat_ofRat_le (y q : ℚ) (hy : y = 0 ∨ roundMag |y| = |y|) (hqy : q ≤ y)
    (hf : (ofRat q).isFinite = true) : (ofRat q).toRat ≤ y := by
  rcases lt_trichotomy q 0 with hq | hq | hq
  · rw [toRat_ofRat_neg q hq hf]
    rcases le_or_lt 0 y with hy0 | hy0
    · have := roundMag_nonneg (-q)
      linarith
    · rcases hy with hy | hy
      · exact absurd hy hy0.ne
      · rw [abs_of_neg hy0] at hy
        have := roundMag_mono (neg_pos.mpr hy0) (neg_le_neg hqy)
        linarith
  · rw [hq, ofRat_zero]
    simp only [toRat]
    linarith
  · rw [toRat_ofRat_pos q hq hf]
    have hy0 : 0 < y := lt_of_lt_of_le hq hqy
    rcases hy with hy | hy
    · exact absurd hy hy0.ne'
    · rw [abs_of_pos hy0] at hy
      have := roundMag_mono hq hqy
      linarith

theorem toRat_zero (s : Bool) : (zero s).toRat = 0 := by
  cases s <;> rfl

theorem half_between (S : Double) (lo hi : ℚ) (hlo : lo = 0 ∨ roundMag |lo| = |lo|)
    (hhi : hi = 0 ∨ roundMag |hi| = |hi|) (h1 : 2 * lo ≤ S.toRat) (h2 : S.toRat ≤ 2 * hi)
    (hf : (S / fin 2).isFinite = true) :
    lo ≤ (S / fin 2).toRat ∧ (S / fin 2).toRat ≤ hi := by
  have hdiv : S / fin 2 = Double.div S (fin 2) := rfl
  have h20 : ¬ ((2 : ℚ) < 0) := by norm_num
  rw [hdiv] at hf ⊢
  cases S with
  | fin s =>
    simp only [toRat] at h1 h2
    by_cases hs : s = 0
    · have : Double.div (fin s) (fin 2) = zero (xor (fin s).signBit (fin 2 : Double).signBit) := by
        simp [Double.div, isFinite, toRat, hs]
      rw [this, toRat_zero]
      constructor <;> linarith
    · have : Double.div (fin s) (fin 2) = ofRat (s / 2) := by
        simp [Double.div, isFinite, toRat, hs]
      rw [this] at hf ⊢
      exact ⟨toRat_ofRat_ge lo _ hlo (by linarith) hf, toRat_ofRat_le hi _ hhi (by linarith) hf⟩
  | nzero =>
    simp only [toRat] at h1 h2
    have : Double.div nzero (fin 2) = zero (xor nzero.signBit (fin 2 : Double).signBit) := by
      simp [Double.div, isFinite, toRat]
    rw [this, toRat_zero]
    constructor <;> linarith
  | pinf => simp [Double.div, isFinite, inf, signBit, h20] at hf
  | ninf => simp [Double.div, isFinite, inf, signBit, h20] at hf
  | nan => simp [Double.div, isFinite] at hf

theorem sum_between (x y : ℚ) (hx : x = 0 ∨ roundMag |x| = |x|)
    (hy : y = 0 ∨ roundMag |y| = |y|) (hf : (ofRat (x + y)).isFinite = true) :
    2 * min x y ≤ (ofRat (x + y)).toRat ∧ (ofRat (x + y)).toRat ≤ 2 * max x y := by
  rcases le_total x y with h | h
  · rw [min_eq_left h, max_eq_right h]
    exact ⟨toRat_ofRat_ge _ _ (fixed_two_mul x hx) (by linarith) hf,
      toRat_ofRat_le _ _ (fixed_two_mul y hy) (by linarith) hf⟩
  · rw [min_eq_right h, max_eq_left h]
    exact ⟨toRat_ofRat_ge _ _ (fixed_two_mul y hy) (by linarith) hf,
      toRat_ofRat_le _ _ (fixed_two_mul x hx) (by linarith) hf⟩

theorem fixed_min (x y : ℚ) (hx : x = 0 ∨ roundMag |x| = |x|)
    (hy : y = 0 ∨ roundMag |y| = |y|) : min x y = 0 ∨ roundMag |min x y| = |min x y| := by
  rcases le_total x y with h | h
  · rwa [min_eq_left h]
  · rwa [min_eq_right h]

theorem fixed_max (x y : ℚ) (hx : x = 0 ∨ roundMag |x| = |x|)
    (hy : y = 0 ∨ roundMag |y| = |y|) : max x y = 0 ∨ roundMag |max x y| = |max x y| := by
  rcases le_total x y with h | h
  · rwa [max_eq_right h]
  · rwa [max_eq_left h]

theorem isFinite_of_half (S : Double) (hf : (S / fin 2).isFinite = true) :
    S.isFinite = true := by
  have hdiv : S / fin 2 = Double.div S (fin 2) := rfl
  have h20 : ¬ ((2 : ℚ) < 0) := by norm_num
  rw [hdiv] at hf
  cases S with
  | fin s => rfl
  | nzero => rfl
  | pinf => simp [Double.div, isFinite, inf, signBit, h20] at hf
  | ninf => simp [Double.div, isFinite, inf, signBit, h20] at hf
  | nan => simp [Double.div, isFinite] at hf

theorem mean_between (l r : Double) (hl : l.valid = true) (hr : r.valid = true)
    (hf : ((l + r) / fin 2).isFinite = true) :
    l.isFinite = true ∧ r.isFinite = true ∧
    min l.toRat r.toRat ≤ ((l + r) / fin 2).toRat ∧
    ((l + r) / fin 2).toRat ≤ max l.toRat r.toRat := by
  have hS := isFinite_of_half _ hf
  have hadd : l + r = Double.add l r := rfl
  have hfl : l.isFinite = true := by
    rw [hadd] at hS
    cases l <;> cases r <;> simp [Double.add, isFinite] at hS ⊢
  have hfr : r.isFinite = true := by
    rw [hadd] at hS
    cases l <;> cases r <;> simp [Double.add, isFinite] at hS ⊢
  refine ⟨hfl, hfr, ?_⟩
  have hxl := valid_fixed l hl
  have hxr := valid_fixed r hr
  have key : 2 * min l.toRat r.toRat ≤ (l + r).toRat ∧
      (l + r).toRat ≤ 2 * max l.toRat r.toRat := by
    by_cases hz : l = nzero ∧ r = nzero
    · rw [hz.1, hz.2]
      have hzz : (nzero : Double) + nzero = nzero := rfl
      rw [hzz]
      simp [toRat]
    · have hsum : l + r = ofRat (l.toRat + r.toRat) := by
        rw [hadd]
        cases l <;> cases r <;> simp [Double.add, isFinite] at hfl hfr hz ⊢
      rw [hsum] at hS ⊢
      exact sum_between _ _ hxl hxr hS
  exact half_between _ _ _ (fixed_min _ _ hxl hxr) (fixed_max _ _ hxl hxr) key.1 key.2 hf

end Double

namespace Double

theorem ofRat_of_fixed (x : ℚ) (hx : x ≠ 0) (hfix : roundMag |x| = |x|)
    (hlt : |x| < pow2 1024) : ofRat x = fin x := by
  unfold ofRat
  rw [hfix, if_neg hx, if_neg (not_le.mpr hlt), if_neg (abs_ne_zero.mpr hx)]
  split_ifs with hp
  · rw [abs_of_pos hp]
  · rw [abs_of_neg (lt_of_le_of_ne (not_lt.mp hp) hx), neg_neg]

theorem valid_lt (q : ℚ) (hv : (fin q).valid = true) : |q| < pow2 1024 := by
  by_cases hq : q = 0
  · rw [hq, abs_zero]; exact pow2_pos _
  · have hfix : roundMag |q| = |q| := by
      rcases valid_fixed (fin q) hv with h | h
      · exact absurd h hq
      · exact h
    simp only [valid, decide_eq_true_eq] at hv
    by_contra hge
    unfold ofRat at hv
    rw [hfix, if_neg hq, if_pos (not_lt.mp hge)] at hv
    split_ifs at hv

theorem fin_div_two (x : ℚ) (hx : x ≠ 0) : (fin x : Double) / fin 2 = ofRat (x / 2) := by
  show Double.div (fin x) (fin 2) = ofRat (x / 2)
  simp [Double.div, isFinite, toRat, hx]

theorem isZero_two_mul (y : ℚ) (hy : y ≠ 0) (hfix : roundMag |y| = |y|) :
    ((fin 2 : Double) * fin y).isZero = false := by
  have hmul : (fin 2 : Double) * fin y = ofRat (2 * y) := by
    show Double.mul (fin 2) (fin y) = ofRat (2 * y)
    simp [Double.mul, isFinite, toRat, hy]
  have h2 : roundMag |2 * y| = |2 * y| := by
    rcases fixed_two_mul y (Or.inr hfix) with h | h
    · exact absurd h (by simpa using hy)
    · exact h
  have h2y : (2 : ℚ) * y ≠ 0 := by simpa using hy
  rw [hmul]
  unfold ofRat
  rw [h2, if_neg h2y, if_neg (abs_ne_zero.mpr h2y)]
  split_ifs <;> simp [isZero, isFinite, toRat, h2y, hy]

end Double

namespace Binary64

/-- Halving is exact while the result stays in the normal range. -/
theorem halved_exact : ∀ (k : Nat) (x : ℚ), x ≠ 0 → roundMag |x| = |x| → |x| < pow2 1024 →
    -1022 ≤ floorLog2 |x| - k →
    halved k (fin x) = fin (x / 2 ^ k) ∧ roundMag |x / 2 ^ k| = |x / 2 ^ k| := by
  intro k
  induction k with
  | zero => intro x _ hfix _ _; simpa [halved] using hfix
  | succ k ih =>
    intro x hx hfix hlt he
    have hx2 : x / 2 ≠ 0 := by simpa using hx
    have habs : |x / 2| = |x| / 2 := by rw [abs_div]; norm_num
    have hpos : 0 < |x| := abs_pos.mpr hx
    have hfix2 : roundMag |x / 2| = |x / 2| := by
      rw [habs]; exact roundMag_half |x| hpos hfix (by omega)
    have hlt2 : |x / 2| < pow2 1024 := by rw [habs]; linarith
    have he2 : floorLog2 |x| = floorLog2 |x / 2| + 1 := by
      rw [habs, ← floorLog2_two_mul (|x| / 2) (half_pos hpos)]
      congr 1; ring
    have e : x / 2 / 2 ^ k = x / 2 ^ (k + 1) := by rw [pow_succ, div_div, mul_comm]
    have := ih (x / 2) hx2 hfix2 hlt2 (by push_cast at he; omega)
    rw [e] at this
    rw [halved, fin_div_two x hx, ofRat_of_fixed _ hx2 hfix2 hlt2]
    exact this

/-- For a binary64 number `q` other than zero, `k` executions of `h /= 2` give exactly
`q / 2^k` as long as this is a normal number, of magnitude `2^-1022` or more. -/
theorem halved_exact_valid (k : Nat) (q : ℚ) (hq : q ≠ 0) (hv : (fin q).valid = true)
    (he : -1022 ≤ floorLog2 |q| - k) : halved k (fin q) = fin (q / 2 ^ k) := by
  have hfix : roundMag |q| = |q| := by
    rcases valid_fixed (fin q) hv with h | h
    · exact absurd h hq
    · exact h
  exact (halved_exact k q hq hfix (valid_lt q hv) he).1

theorem halved_isZero (k : Nat) (q : ℚ) (hq : q ≠ 0) (hv : (fin q).valid = true)
    (he : -1022 ≤ floorLog2 |q| - k) :
    (halved k (fin q)).isZero = false ∧ (fin 2 * halved k (fin q)).isZero = false := by
  have hfix : roundMag |q| = |q| := by
    rcases valid_fixed (fin q) hv with h | h
    · exact absurd h hq
    · exact h
  obtain ⟨h1, h2⟩ := halved_exact k q hq hfix (valid_lt q hv) he
  have hne : q / 2 ^ k ≠ 0 := div_ne_zero hq (by positivity)
  rw [h1]
  exact ⟨by simp [isZero, isFinite, toRat, hne], isZero_two_mul _ hne h2⟩

theorem halved_zero (k : Nat) : halved k (fin 0) = fin 0 := by
  induction k with
  | zero => rfl
  | succ k ih =>
    rw [halved, show (fin 0 : Double) / fin 2 = fin 0 by decide!]
    exact ih

/-- The step `0.1` of the two `main` functions is `0` after `1072` halvings: the first
`1018` are exact, the next `54` run through the subnormal range. -/
theorem halved_tenth_eq_zero (k : Nat) (hk : 1072 ≤ k) : halved k (ofRat (1 / 10)) = fin 0 := by
  obtain ⟨j, rfl⟩ := Nat.exists_eq_add_of_le hk
  have h0 : ofRat (1 / 10) = fin (3602879701896397 / 2 ^ 55) := by decide!
  have h1 : halved 1018 (fin (3602879701896397 / 2 ^ 55))
      = fin (3602879701896397 / 2 ^ 55 / 2 ^ 1018) :=
    halved_exact_valid 1018 _ (by norm_num)
      (show (fin (3602879701896397 / 2 ^ 55) : Double).valid = true by decide!)
      (by rw [show floorLog2 |(3602879701896397 / 2 ^ 55 : ℚ)| = -4 by decide!]; norm_num)
  have h2 : halved 54 (fin (3602879701896397 / 2 ^ 55 / 2 ^ 1018)) = fin 0 := by decide!
  rw [show 1072 + j = 1018 + (54 + j) by omega, halved_add, h0, h1, halved_add, h2, halved_zero]

end Binary64

namespace Double

theorem floorLog2_pow2 (e : Int) : floorLog2 (pow2 e) = e :=
  floorLog2_unique _ e le_rfl (pow2_lt_pow2_iff.mpr (by omega))

theorem roundMag_pow2 (e : Int) (he : -1074 ≤ e) : roundMag (pow2 e) = pow2 e := by
  have hp : ulpExp (pow2 e) ≤ e := by
    unfold ulpExp; rw [floorLog2_pow2]; omega
  obtain ⟨n, hn⟩ := Int.eq_ofNat_of_zero_le (sub_nonneg.mpr hp)
  refine roundMag_of_scaled (pow2 e) (2 ^ n) ?_
  rw [div_eq_iff (pow2_pos _).ne']
  push_cast
  rw [← pow2_natCast, ← hn, ← pow2_add]
  congr 1; ring

theorem pow2_one : pow2 1 = 2 := by
  rw [pow2_eq_zpow]; norm_num

theorem pow2_1024 : pow2 1024 = 2 * pow2 1023 := by
  rw [show (1024 : Int) = 1 + 1023 by norm_num, pow2_add, pow2_one]

theorem roundMag_zero : roundMag 0 = 0 := by
  simp [roundMag, roundHalfEven]

theorem roundMag_roundMag (a : ℚ) (ha : 0 < a) : roundMag (roundMag a) = roundMag a := by
  rcases (roundMag_nonneg a).eq_or_lt with h0 | hpos
  · rw [← h0, roundMag_zero]
  · have hr : roundMag a / pow2 (ulpExp a) =
        (roundHalfEven (a / pow2 (ulpExp a)).num.natAbs (a / pow2 (ulpExp a)).den : Nat) := by
      rw [div_eq_iff (pow2_pos _).ne']; rfl
    rcases le_or_lt (-1022) (floorLog2 a) with hn | hs
    · have h1 := roundMag_ge a ha hn
      have h2 := roundMag_le_top a ha
      have hp : ulpExp a = floorLog2 a - 52 := by unfold ulpExp; omega
      have h3 : pow2 (53 + ulpExp a) = pow2 (floorLog2 a + 1) := by
        congr 1; omega
      rw [h3] at h2
      rcases h2.lt_or_eq with hlt | heq
      · have hfl : floorLog2 (roundMag a) = floorLog2 a := floorLog2_unique _ _ h1 hlt
        have hu : ulpExp (roundMag a) = ulpExp a := by unfold ulpExp; rw [hfl]
        exact roundMag_of_scaled _ _ (by rw [hu]; exact hr)
      · rw [heq]
        exact roundMag_pow2 _ (by omega)
    · have hp : ulpExp a = -1074 := by unfold ulpExp; omega
      obtain ⟨_, hup⟩ := floorLog2_spec a ha
      have hle : a ≤ pow2 (-1022) := hup.le.trans (pow2_le_pow2 (by omega))
      have hrle : roundMag a ≤ pow2 (-1022) := by
        have := roundMag_mono ha hle
        rwa [roundMag_pow2 _ (by norm_num)] at this
      obtain ⟨hlo, _⟩ := floorLog2_spec (roundMag a) hpos
      have hfl : floorLog2 (roundMag a) < -1022 + 1 :=
        pow2_lt_pow2_iff.mp (lt_of_le_of_lt (hlo.trans hrle) (pow2_lt_pow2_iff.mpr (by omega)))
      have hu : ulpExp (roundMag a) = ulpExp a := by
        rw [hp]; unfold ulpExp; omega
      exact roundMag_of_scaled _ _ (by rw [hu]; exact hr)

theorem valid_ofRat (q : ℚ) : (ofRat q).valid = true := by
  have hz : (fin 0 : Double).valid = true := by simp [valid, ofRat_zero]
  by_cases hq : q = 0
  · rw [hq, ofRat_zero]
    exact hz
  · have hpos : 0 < |q| := abs_pos.mpr hq
    have hidem := roundMag_roundMag |q| hpos
    have habs : |(roundMag |q|)| = roundMag |q| := abs_of_nonneg (roundMag_nonneg _)
    unfold ofRat
    rw [if_neg hq]
    by_cases h1 : pow2 1024 ≤ roundMag |q|
    · rw [if_pos h1]
      by_cases hp : 0 < q
      · rw [if_pos hp]; rfl
      · rw [if_neg hp]; rfl
    · rw [if_neg h1]
      by_cases h2 : roundMag |q| = 0
      · rw [if_pos h2]
        by_cases hp : 0 < q
        · rw [if_pos hp]; exact hz
        · rw [if_neg hp]; rfl
      · rw [if_neg h2]
        simp only [valid, decide_eq_true_eq]
        by_cases hp : 0 < q
        · rw [if_pos hp]
          exact ofRat_of_fixed _ h2 (by rw [habs]; exact hidem)
            (by rw [habs]; exact not_le.mp h1)
        · rw [if_neg hp]
          exact ofRat_of_fixed _ (neg_ne_zero.mpr h2) (by rw [abs_neg, habs]; exact hidem)
            (by rw [abs_neg, habs]; exact not_le.mp h1)

theorem half_toRat_abs (d : Double) (hf : d.isFinite = true) (hlt : |d.toRat| < pow2 1024) :
    (d / fin 2).isFinite = true ∧
    |(d / fin 2).toRat| = (if d.toRat = 0 then 0 else roundMag (|d.toRat| / 2)) ∧
    |(d / fin 2).toRat| ≤ pow2 1023 := by
  have hdiv : d / fin 2 = Double.div d (fin 2) := rfl
  have e1 : pow2 1024 = 2 * pow2 1023 := pow2_1024
  by_cases h0 : d.toRat = 0
  · have : d / fin 2 = zero (xor d.signBit (fin 2 : Double).signBit) := by
      rw [hdiv]
      cases d <;> simp_all [Double.div, isFinite, toRat]
    rw [this, toRat_zero, if_pos h0, abs_zero]
    exact ⟨by cases xor d.signBit (fin 2 : Double).signBit <;> rfl, rfl, (pow2_pos _).le⟩
  · have hx : d = fin d.toRat := by
      cases d <;> simp_all [isFinite, toRat]
    have hhalf : d / fin 2 = ofRat (d.toRat / 2) := by
      rw [hx]; exact fin_div_two _ (by simpa [toRat] using h0)
    have hq : d.toRat / 2 ≠ 0 := by simpa using h0
    have habs : |d.toRat / 2| = |d.toRat| / 2 := by rw [abs_div]; norm_num
    have hpos : 0 < |d.toRat| / 2 := half_pos (abs_pos.mpr h0)
    have hle : roundMag (|d.toRat| / 2) ≤ pow2 1023 := by
      have := roundMag_mono hpos (show |d.toRat| / 2 ≤ pow2 1023 by linarith)
      rwa [roundMag_pow2 _ (by norm_num)] at this
    have hnot : ¬ (pow2 1024 ≤ roundMag (|d.toRat| / 2)) := by
      have := pow2_pos 1023
      intro h; linarith
    have habs2 : |(roundMag (|d.toRat| / 2))| = roundMag (|d.toRat| / 2) :=
      abs_of_nonneg (roundMag_nonneg _)
    rw [hhalf, if_neg h0]
    unfold ofRat
    rw [if_neg hq, habs, if_neg hnot]
    by_cases h2 : roundMag (|d.toRat| / 2) = 0
    · rw [if_pos h2]
      have hz : ∀ z : Double, z = fin 0 ∨ z = nzero →
          z.isFinite = true ∧ |z.toRat| = roundMag (|d.toRat| / 2) ∧ |z.toRat| ≤ pow2 1023 := by
        intro z hz
        rcases hz with rfl | rfl
        · exact ⟨rfl, by rw [h2]; exact abs_zero, by
            show |(0 : ℚ)| ≤ pow2 1023
            rw [abs_zero]; exact (pow2_pos _).le⟩
        · exact ⟨rfl, by rw [h2]; exact abs_zero, by
            show |(0 : ℚ)| ≤ pow2 1023
            rw [abs_zero]; exact (pow2_pos _).le⟩
      by_cases hp : 0 < d.toRat / 2
      · rw [if_pos hp]; exact hz _ (Or.inl rfl)
      · rw [if_neg hp]; exact hz _ (Or.inr rfl)
    · rw [if_neg h2]
      by_cases hp : 0 < d.toRat / 2
      · rw [if_pos hp]
        refine ⟨rfl, ?_, ?_⟩
        · show |(roundMag (|d.toRat| / 2))| = roundMag (|d.toRat| / 2)
          exact habs2
        · show |(roundMag (|d.toRat| / 2))| ≤ pow2 1023
          rw [habs2]; exact hle
      · rw [if_neg hp]
        refine ⟨rfl, ?_, ?_⟩
        · show |(-roundMag (|d.toRat| / 2))| = roundMag (|d.toRat| / 2)
          rw [abs_neg]; exact habs2
        · show |(-roundMag (|d.toRat| / 2))| ≤ pow2 1023
          rw [abs_neg, habs2]; exact hle

theorem isZero_cases (z : Double) (hz : z.isZero = true) : z = fin 0 ∨ z = nzero := by
  cases z <;> simp_all [isZero, isFinite, toRat]

theorem add_sub_zero (q : ℚ) (hv : (fin q).valid = true) (z : Double) (hz : z.isZero = true) :
    (fin q : Double) + z = fin q ∧ (fin q : Double) - z = fin q := by
  simp only [valid, decide_eq_true_eq] at hv
  have h1 : Double.add (fin q) (fin 0) = fin q := by
    simp only [Double.add, toRat, add_zero]; exact hv
  have h2 : Double.add (fin q) nzero = fin q := by
    simp only [Double.add, toRat, add_zero]; exact hv
  have hn : Double.neg (fin 0) = nzero := by simp [Double.neg]
  rcases isZero_cases z hz with rfl | rfl
  · refine ⟨h1, ?_⟩
    show Double.add (fin q) (Double.neg (fin 0)) = fin q
    rw [hn]; exact h2
  · exact ⟨h2, h1⟩

theorem mean_self (v : Double) (hv : v.valid = true) (hf : v.isFinite = true)
    (hlt : |v.toRat| < pow2 1023) : (v + v) / fin 2 = v := by
  have e1 : pow2 1024 = 2 * pow2 1023 := pow2_1024
  cases v with
  | fin x =>
    by_cases hx : x = 0
    · rw [hx]; decide!
    · have hfix : roundMag |x| = |x| := by
        rcases valid_fixed (fin x) hv with h | h
        · exact absurd h hx
        · exact h
      have h2x : (2 : ℚ) * x ≠ 0 := by simpa using hx
      have hfix2 : roundMag |2 * x| = |2 * x| := by
        rcases fixed_two_mul x (Or.inr hfix) with h | h
        · exact absurd h h2x
        · exact h
      have hlt2 : |2 * x| < pow2 1024 := by
        simp only [toRat] at hlt
        rw [abs_mul, e1]; norm_num; linarith
      have hsum : (fin x : Double) + fin x = fin (2 * x) := by
        show Double.add (fin x) (fin x) = fin (2 * x)
        simp only [Double.add, toRat]
        rw [← two_mul]
        exact ofRat_of_fixed _ h2x hfix2 hlt2
      simp only [valid, decide_eq_true_eq] at hv
      rw [hsum, fin_div_two _ h2x, mul_div_cancel_left₀ _ (by norm_num : (2 : ℚ) ≠ 0), hv]
  | nzero => decide!
  | pinf => simp [isFinite] at hf
  | ninf => simp [isFinite] at hf
  | nan => simp [isFinite] at hf

theorem gap_self (v : Double) (hf : v.isFinite = true) : Double.abs (v - v) = fin 0 := by
  have hsub : v - v = Double.add v (Double.neg v) := rfl
  rw [hsub]
  cases v with
  | fin x =>
    by_cases hx : x = 0
    · simp [Double.add, Double.neg, toRat, hx, ofRat_zero, Double.abs]
    · simp [Double.add, Double.neg, toRat, hx, ofRat_zero, Double.abs]
  | nzero => simp [Double.add, Double.neg, toRat, ofRat_zero, Double.abs]
  | pinf => simp [isFinite] at hf
  | ninf => simp [isFinite] at hf
  | nan => simp [isFinite] at hf

theorem sub_one_valid (X : Double) : (X - fin 1).valid = true := by
  have hsub : X - fin 1 = Double.add X (Double.neg (fin 1)) := rfl
  have hneg : Double.neg (fin 1) = fin (-1) := by simp [Double.neg]
  rw [hsub, hneg]
  cases X with
  | fin x => exact valid_ofRat _
  | nzero => exact valid_ofRat _
  | pinf => rfl
  | ninf => rfl
  | nan => rfl

end Double

namespace Binary64

theorem halved_dominated : ∀ (k : Nat) (d D : Double), d.isFinite = true →
    D.isFinite = true → |d.toRat| ≤ |D.toRat| → |D.toRat| < pow2 1024 →
    (halved k d).isFinite = true ∧ |(halved k d).toRat| ≤ |(halved k D).toRat| := by
  intro k
  induction k with
  | zero => intro d D hd _ hle _; exact ⟨hd, hle⟩
  | succ k ih =>
    intro d D hd hD hle hlt
    obtain ⟨f1, e1, _⟩ := half_toRat_abs d hd (lt_of_le_of_lt hle hlt)
    obtain ⟨f2, e2, b2⟩ := half_toRat_abs D hD hlt
    have hlt2 : |(D / fin 2).toRat| < pow2 1024 :=
      lt_of_le_of_lt b2 (pow2_lt_pow2_iff.mpr (by norm_num))
    have hle2 : |(d / fin 2).toRat| ≤ |(D / fin 2).toRat| := by
      rw [e1, e2]
      by_cases h0 : d.toRat = 0
      · rw [if_pos h0]
        split_ifs
        · exact le_rfl
        · exact roundMag_nonneg _
      · have hD0 : D.toRat ≠ 0 := by
          intro h
          rw [h, abs_zero] at hle
          exact h0 (abs_eq_zero.mp (le_antisymm hle (abs_nonneg _)))
        rw [if_neg h0, if_neg hD0]
        exact roundMag_mono (half_pos (abs_pos.mpr h0)) (by linarith)
    exact ih _ _ f1 f2 hle2 hlt2

theorem halved_top_zero : halved 2098 (fin (pow2 1023)) = fin 0 := by
  have h1 := (halved_exact 2045 (pow2 1023) (pow2_pos _).ne'
    (by rw [abs_of_pos (pow2_pos _)]; exact roundMag_pow2 _ (by norm_num))
    (by rw [abs_of_pos (pow2_pos _)]; exact pow2_lt_pow2_iff.mpr (by norm_num))
    (by rw [abs_of_pos (pow2_pos _), floorLog2_pow2]; norm_num)).1
  have h2 : halved 53 (fin (pow2 1023 / 2 ^ 2045)) = fin 0 := by decide!
  rw [show 2098 = 2045 + 53 by norm_num, halved_add, h1, h2]

/-- Every finite step is zero after `2099` halvings. -/
theorem halved_eventually_zero (d : Double) (hd : d.isFinite = true)
    (hlt : |d.toRat| < pow2 1024) (k : Nat) (hk : 2099 ≤ k) : (halved k d).isZero = true := by
  obtain ⟨j, rfl⟩ := Nat.exists_eq_add_of_le hk
  obtain ⟨f1, _, b1⟩ := half_toRat_abs d hd hlt
  have hdom := halved_dominated (2098 + j) (d / fin 2) (fin (pow2 1023)) f1 rfl
    (by simpa [toRat, abs_of_pos (pow2_pos 1023)] using b1)
    (by simpa [toRat, abs_of_pos (pow2_pos 1023)] using
      (pow2_lt_pow2_iff.mpr (by norm_num : (1023 : Int) < 1024)))
  rw [halved_add 2098 j (fin (pow2 1023)), halved_top_zero, halved_zero] at hdom
  have hstep : halved (2099 + j) d = halved (2098 + j) (d / fin 2) := by
    rw [show 2099 + j = (2098 + j) + 1 by omega, halved]
  rw [hstep]
  have h0 : (halved (2098 + j) (d / fin 2)).toRat = 0 := by
    have := hdom.2
    simp only [toRat, abs_zero] at this
    exact abs_eq_zero.mp (le_antisymm this (abs_nonneg _))
  simp [isZero, hdom.1, h0]

end Binary64

/-! ## Claims settled on the binary64 model -/

/-- C2, counterexample: in `finite_difference(0, 5 * 2^-1074, 4, f)` with `f(x) = x` the step
is rounded at each halving (`5u`, `2u`, `u`, `0` for `u = 2^-1074`), so element `3` is
`0 / 0`, not-a-number, whereas the quotient at step `h / 2^3` (which rounds to `u`) is `1`.
The step `5u` is a binary64 number. -/
theorem finite_difference_step_underflow :
    (finite_difference (fin 0) (fin (5 * pow2 (-1074))) 4 (fun x => x))[3]? = some nan ∧
    ((fun x : Double => x) (fin 0 + fin (5 * pow2 (-1074)) / fin (2 ^ 3))
        - (fun x : Double => x) (fin 0)) / (fin (5 * pow2 (-1074)) / fin (2 ^ 3)) = fin 1 ∧
    (fin (5 * pow2 (-1074))).valid = true := by
  decide!

/-- C2, amended: for every function `f`, every `x`, `h`, `n` and every index `i < n`,
element `i` of `finite_difference(x, h, n, f)` is the forward-difference quotient
`(f(x + h_i) - f(x)) / h_i` in double arithmetic, at the step `h_i` that `h` has after `i`
executions of `h /= 2`. When `h` is a binary64 number other than zero and `h / 2^i` is
normal (`|h| / 2^i >= 2^-1022`, which is `floorLog2 |h| - i >= -1022`), the step `h_i` is
exactly `h / 2^i` and the element is the quotient at that step. -/
theorem finite_difference_getElem_halved (f : Double → Double) (x h : Double) (n : Int)
    (i : Nat) (hi : (i : Int) < n) :
    (finite_difference x h n f)[i]? = some ((f (x + halved i h) - f x) / halved i h) ∧
    (∀ q : ℚ, h = fin q → q ≠ 0 → (fin q).valid = true → -1022 ≤ floorLog2 |q| - i →
      (finite_difference x h n f)[i]? =
        some ((f (x + fin (q / 2 ^ i)) - f x) / fin (q / 2 ^ i))) := by
  have hi' : i < n.toNat := by omega
  have key : (finite_difference x h n f)[i]? =
      some ((f (x + halved i h) - f x) / halved i h) := by
    rw [finite_difference_halved, List.getElem?_map, List.getElem?_range hi']
    rfl
  refine ⟨key, fun q hq hq0 hv he => ?_⟩
  rw [key, hq, halved_exact_valid i q hq0 hv he]

theorem finite_difference_getElem_halved_witness :
    (finite_difference (fin 2) (fin (3602879701896397 / 2 ^ 55)) 20 f)[3]? =
      some ((f (fin 2 + fin (3602879701896397 / 2 ^ 55 / 2 ^ 3)) - f (fin 2))
        / fin (3602879701896397 / 2 ^ 55 / 2 ^ 3)) :=
  (finite_difference_getElem_halved f (fin 2) (fin (3602879701896397 / 2 ^ 55)) 20 3
    (by decide)).2 (3602879701896397 / 2 ^ 55) rfl (by norm_num)
    (show (fin (3602879701896397 / 2 ^ 55) : Double).valid = true by decide!)
    (by rw [show floorLog2 |(3602879701896397 / 2 ^ 55 : ℚ)| = -4 by decide!]; norm_num)

/-- C3, counterexample: `numerical_limit(2, 60, 1, 0, f_1)` returns `-1`, not the sentinel,
although over exact arithmetic `|f_1(2 + s) - f_1(2 - s)| = 2^-57 > 0 = tol` for
`s = 1 / 2^59`: both probes `2 + s` and `2 - s` round to `2`. -/
theorem numerical_limit_probes_absorbed :
    numerical_limit (fin 2) 60 (fin 1) (fin 0) f_1 = fin (-1) ∧
    (0 : ℚ) < |((2 + 1 / 2 ^ 59) * (2 + 1 / 2 ^ 59) - 2 * (2 + 1 / 2 ^ 59) - 1)
      - ((2 - 1 / 2 ^ 59) * (2 - 1 / 2 ^ 59) - 2 * (2 - 1 / 2 ^ 59) - 1)| := by
  constructor
  · decide!
  · norm_num

/-- C3, amended: for every `a`, `step`, `f`, every finite `tol` and every `n >= 1`, with
`l = f(a - s)` and `r = f(a + s)` computed in double arithmetic at the step `s` that `step`
has after `n - 1` executions of `step /= 2`: `numerical_limit(a, n, step, tol, f)` is the
not-a-number sentinel if and only if the comparison `|r - l| <= tol` is false; when `l` and
`r` are finite this is `|r - l| > tol`. When `step` is a binary64 number other than zero and
`step / 2^(n-1)` is normal, `s` is exactly `step / 2^(n-1)`. -/
theorem numerical_limit_nan_iff_gap (a step tol : Double) (f : Double → Double) (n : Int)
    (hn : 1 ≤ n) (htol : tol.isFinite = true) :
    (numerical_limit a n step tol f = nan ↔
      Double.le (Double.abs (f (a + halved (n - 1).toNat step)
        - f (a - halved (n - 1).toNat step))) tol = false) ∧
    ((f (a - halved (n - 1).toNat step)).isFinite = true →
      (f (a + halved (n - 1).toNat step)).isFinite = true →
      (numerical_limit a n step tol f = nan ↔
        Double.lt tol (Double.abs (f (a + halved (n - 1).toNat step)
          - f (a - halved (n - 1).toNat step))) = true)) ∧
    (∀ q : ℚ, step = fin q → q ≠ 0 → (fin q).valid = true →
      -1022 ≤ floorLog2 |q| - (n - 1).toNat →
      halved (n - 1).toNat step = fin (q / 2 ^ (n - 1).toNat)) := by
  have ht : tol ≠ nan := by
    intro h
    rw [h] at htol
    exact absurd htol (by decide)
  have key : numerical_limit a n step tol f = nan ↔
      Double.le (Double.abs (f (a + halved (n - 1).toNat step)
        - f (a - halved (n - 1).toNat step))) tol = false := by
    rw [numerical_limit_halved _ _ _ _ _ hn]
    generalize f (a - halved (n - 1).toNat step) = l
    generalize f (a + halved (n - 1).toNat step) = r
    cases hc : Double.le (Double.abs (r - l)) tol with
    | true =>
      obtain ⟨hl, hr⟩ := isFinite_of_gap_le htol hc
      simp only [if_true]
      exact iff_of_false (div_two_ne_nan (add_ne_nan hl hr)) (by simp)
    | false => simp
  refine ⟨key, fun hl hr => ?_, fun q hq hq0 hv he => ?_⟩
  · rw [key]
    exact le_eq_false_iff_lt (abs_ne_nan (sub_ne_nan hr hl)) ht
  · rw [hq]
    exact halved_exact_valid _ q hq0 hv he

theorem numerical_limit_nan_iff_gap_witness :
    numerical_limit (fin (1 / 2)) 2 (fin 1) (fin 1) f_2 = nan ↔
      Double.le (Double.abs (f_2 (fin (1 / 2) + halved ((2 : Int) - 1).toNat (fin 1))
        - f_2 (fin (1 / 2) - halved ((2 : Int) - 1).toNat (fin 1)))) (fin 1) = false :=
  (numerical_limit_nan_iff_gap (fin (1 / 2)) (fin 1) (fin 1) f_2 2 (by decide) (by decide)).1

/-- C4, counterexample: with `u = 2^-1074` and `g(x) = x * 2^537 * 2^537`,
`numerical_limit(0, 4, 5u, 1, g)` returns `0` (the step is `0` after three halvings), but
`numerical_limit(0, 1, 5u / 2^3, 1, g)` returns the sentinel (`5u / 8` rounds to `u`, the
probes are `-1` and `1`). The step `5u` and the factor `2^537` are binary64 numbers. -/
theorem numerical_limit_halving_not_division :
    numerical_limit (fin 0) 4 (fin (5 * pow2 (-1074))) (fin 1)
      (fun x => x * fin (pow2 537) * fin (pow2 537)) = fin 0 ∧
    numerical_limit (fin 0) 1 (fin (5 * pow2 (-1074)) / fin (2 ^ 3)) (fin 1)
      (fun x => x * fin (pow2 537) * fin (pow2 537)) = nan ∧
    (fin (5 * pow2 (-1074))).valid = true ∧ (fin (pow2 537)).valid = true := by
  decide!

/-- C4, amended: for every `n >= 1`, with `s` the step after `n - 1` executions of
`step /= 2` in double arithmetic: when `|f(a + s) - f(a - s)| <= tol` the call
`numerical_limit(a, n, step, tol, f)` returns `(f(a - s) + f(a + s)) / 2`; and in every case
it returns what `numerical_limit(a, 1, s, tol, f)` returns, so only the last iteration's
probes matter. When `step` is a binary64 number other than zero and `step / 2^(n-1)` is
normal (`|step| / 2^(n-1) >= 2^-1022`), `s` is exactly `step / 2^(n-1)`. -/
theorem numerical_limit_last_iteration_halved (a step tol : Double) (f : Double → Double)
    (n : Int) (hn : 1 ≤ n) :
    (Double.le (Double.abs (f (a + halved (n - 1).toNat step)
        - f (a - halved (n - 1).toNat step))) tol = true →
      numerical_limit a n step tol f =
        (f (a - halved (n - 1).toNat step) + f (a + halved (n - 1).toNat step)) / fin 2) ∧
    numerical_limit a n step tol f =
      numerical_limit a 1 (halved (n - 1).toNat step) tol f ∧
    (∀ q : ℚ, step = fin q → q ≠ 0 → (fin q).valid = true →
      -1022 ≤ floorLog2 |q| - (n - 1).toNat →
      numerical_limit a n step tol f =
        numerical_limit a 1 (fin (q / 2 ^ (n - 1).toNat)) tol f) := by
  have key : numerical_limit a n step tol f =
      numerical_limit a 1 (halved (n - 1).toNat step) tol f := by
    rw [numerical_limit_halved _ _ _ _ _ hn, numerical_limit_halved _ _ _ _ 1 (le_refl 1)]
    rfl
  refine ⟨fun h => ?_, key, fun q hq hq0 hv he => ?_⟩
  · rw [numerical_limit_halved _ _ _ _ _ hn, if_pos h]
  · rw [key, hq, halved_exact_valid _ q hq0 hv he]

theorem numerical_limit_last_iteration_halved_witness :
    numerical_limit (fin 2) 10 (fin (3602879701896397 / 2 ^ 55)) (ofRat (1 / 1000)) f_1 =
      numerical_limit (fin 2) 1 (fin (3602879701896397 / 2 ^ 55 / 2 ^ ((10 : Int) - 1).toNat))
        (ofRat (1 / 1000)) f_1 :=
  (numerical_limit_last_iteration_halved (fin 2) (fin (3602879701896397 / 2 ^ 55))
    (ofRat (1 / 1000)) f_1 10 (by decide)).2.2 (3602879701896397 / 2 ^ 55) rfl (by norm_num)
    (show (fin (3602879701896397 / 2 ^ 55) : Double).valid = true by decide!)
    (by rw [show floorLog2 |(3602879701896397 / 2 ^ 55 : ℚ)| = -4 by decide!]; decide)

/-- C6, counterexample: at `a = 2^600`, with the step `0.1` and the tolerance `0.001` of
`main`, `f_1` overflows (`f_1(2^600) = +inf`): `numerical_limit(2^600, n, 0.1, 0.001, f_1)`
is the sentinel for `n = 10` and for every `n >= 1073`, so no `N` exists from which the
result is a number. -/
theorem numerical_limit_f_1_overflow :
    f_1 (fin (pow2 600)) = pinf ∧
    numerical_limit (fin (pow2 600)) 10 (ofRat (1 / 10)) (ofRat (1 / 1000)) f_1 = nan ∧
    ∀ n : Int, 1073 ≤ n →
      numerical_limit (fin (pow2 600)) n (ofRat (1 / 10)) (ofRat (1 / 1000)) f_1 = nan := by
  refine ⟨by decide!, by decide!, fun n hn => ?_⟩
  rw [numerical_limit_halved _ _ _ _ _ (by omega), halved_tenth_eq_zero _ (by omega)]
  decide!

/-- C6, amended: for `f_1(x) = x^2 - 2x - 1`, every finite binary64 `a` and `step` and every
`tol >= 0` such that `f_1(a)` is finite and below `2^1023` in magnitude (its double does not
overflow), there is an `N`, namely `2100`, such that for every `n >= N` the call
`numerical_limit(a, n, step, tol, f_1)` returns a number, exactly `f_1(a)`: the step is zero
by then. At `a = 2` with the step `0.1` of `main` this holds from `N = 1073` on, with
`f_1(2) = -1`; and `numerical_limit(2, 10, 0.1, 0.001, f_1)` is a number within `0.001` of
`f_1(2) = -1`. -/
theorem numerical_limit_f_1_converges (a step tol : Double)
    (ha : a.valid = true) (haf : a.isFinite = true)
    (hs : step.valid = true) (hsf : step.isFinite = true)
    (hv : (f_1 a).isFinite = true) (hvl : |(f_1 a).toRat| < pow2 1023)
    (htol : Double.le (fin 0) tol = true) :
    (∀ n : Int, 2100 ≤ n → numerical_limit a n step tol f_1 = f_1 a) ∧
    f_1 (fin 2) = fin (-1) ∧
    (∀ n : Int, 1073 ≤ n → numerical_limit (fin 2) n (ofRat (1 / 10)) tol f_1 = fin (-1)) ∧
    (numerical_limit (fin 2) 10 (ofRat (1 / 10)) (ofRat (1 / 1000)) f_1).isFinite = true ∧
    |(numerical_limit (fin 2) 10 (ofRat (1 / 10)) (ofRat (1 / 1000)) f_1).toRat - (-1)|
      ≤ 1 / 1000 := by
  refine ⟨fun n hn => ?_, by decide!, fun n hn => ?_, by decide!, by decide!⟩
  · have hslt : |step.toRat| < pow2 1024 := by
      cases step with
      | fin q => exact valid_lt q hs
      | nzero => simp only [toRat, abs_zero]; exact pow2_pos _
      | pinf => simp only [toRat, abs_zero]; exact pow2_pos _
      | ninf => simp only [toRat, abs_zero]; exact pow2_pos _
      | nan => simp only [toRat, abs_zero]; exact pow2_pos _
    have hz := halved_eventually_zero step hsf hslt (n - 1).toNat (by omega)
    have hprobe : f_1 (a + halved (n - 1).toNat step) = f_1 a ∧
        f_1 (a - halved (n - 1).toNat step) = f_1 a := by
      generalize halved (n - 1).toNat step = z at hz
      cases a with
      | fin q =>
        obtain ⟨h1, h2⟩ := add_sub_zero q ha z hz
        rw [h1, h2]
        exact ⟨rfl, rfl⟩
      | nzero =>
        rcases isZero_cases z hz with rfl | rfl
        · decide!
        · decide!
      | pinf => simp [isFinite] at haf
      | ninf => simp [isFinite] at haf
      | nan => simp [isFinite] at haf
    rw [numerical_limit_halved _ _ _ _ _ (by omega), hprobe.1, hprobe.2, gap_self _ hv, htol,
      if_pos rfl]
    exact mean_self _ (sub_one_valid _) hv hvl
  · rw [numerical_limit_halved _ _ _ _ _ (by omega), halved_tenth_eq_zero _ (by omega),
      show fin 2 + fin 0 = (fin 2 : Double) by decide!,
      show fin 2 - fin 0 = (fin 2 : Double) by decide!,
      show f_1 (fin 2) = fin (-1) by decide!,
      show Double.abs (fin (-1) - fin (-1)) = fin 0 by decide!, htol, if_pos rfl]
    decide!

theorem numerical_limit_f_1_converges_witness :
    (∀ n : Int, 2100 ≤ n →
      numerical_limit (fin 3) n (ofRat (1 / 10)) (ofRat (1 / 1000)) f_1 = f_1 (fin 3)) ∧
    f_1 (fin 2) = fin (-1) ∧
    (∀ n : Int, 1073 ≤ n →
      numerical_limit (fin 2) n (ofRat (1 / 10)) (ofRat (1 / 1000)) f_1 = fin (-1)) ∧
    (numerical_limit (fin 2) 10 (ofRat (1 / 10)) (ofRat (1 / 1000)) f_1).isFinite = true ∧
    |(numerical_limit (fin 2) 10 (ofRat (1 / 10)) (ofRat (1 / 1000)) f_1).toRat - (-1)|
      ≤ 1 / 1000 :=
  numerical_limit_f_1_converges (fin 3) (ofRat (1 / 10)) (ofRat (1 / 1000)) (by decide!)
    (by decide) (by decide!) (by decide!) (by decide!) (by decide!) (by decide!)

/-- C11, counterexample: the step `h = 2^-1074` is not zero, but halving it gives `0`: in
`finite_difference(x, h, 2, f)` and `central_difference(x, h, 2, f)` the divisor of
iteration `1` is `0`, and the runs with the division guarded stop there. -/
theorem difference_divisor_underflows :
    (fin (pow2 (-1074))).isZero = false ∧
    (finite_difference_divisors (fin (pow2 (-1074))) 2)[1]? = some (fin 0) ∧
    (central_difference_divisors (fin (pow2 (-1074))) 2)[1]? = some (fin 0) ∧
    finite_difference_guarded (fin 2) (fin (pow2 (-1074))) 2 f = none ∧
    central_difference_guarded (fin 2) (fin (pow2 (-1074))) 2 f = none := by
  decide!

/-- C11, amended: iteration `i` of `finite_difference` divides by `h_i` and iteration `i` of
`central_difference` by `2 * h_i`, where `h_i` is the step after `i` executions of `h /= 2`
in double arithmetic. When none of these divisors is zero no division by zero occurs: the
runs with the division guarded return the sequences of the unguarded runs. This is the
case when `h` is a binary64 number other than zero and `h / 2^(n-1)` is normal
(`|h| / 2^(n-1) >= 2^-1022`), and so in the run of `main` (`h = 0.1`, `n = 20`). -/
theorem difference_divisors_halved (x h : Double) (n : Int) (f : Double → Double) :
    (∀ i : Nat, (i : Int) < n →
      (finite_difference_divisors h n)[i]? = some (halved i h) ∧
      (central_difference_divisors h n)[i]? = some (fin 2 * halved i h)) ∧
    ((∀ d ∈ finite_difference_divisors h n, d.isZero = false) →
      finite_difference_guarded x h n f = some (finite_difference x h n f)) ∧
    ((∀ d ∈ central_difference_divisors h n, d.isZero = false) →
      central_difference_guarded x h n f = some (central_difference x h n f)) ∧
    (∀ q : ℚ, h = fin q → q ≠ 0 → (fin q).valid = true → -1022 ≤ floorLog2 |q| - (n - 1) →
      (∀ d ∈ finite_difference_divisors h n, d.isZero = false) ∧
      (∀ d ∈ central_difference_divisors h n, d.isZero = false) ∧
      finite_difference_guarded x h n f = some (finite_difference x h n f) ∧
      central_difference_guarded x h n f = some (central_difference x h n f)) ∧
    (∀ d ∈ finite_difference_divisors (ofRat (1 / 10)) 20, d.isZero = false) ∧
    (∀ d ∈ central_difference_divisors (ofRat (1 / 10)) 20, d.isZero = false) := by
  refine ⟨fun i hi => ?_, finite_difference_guarded_loop_eq f x _ h [],
    central_difference_guarded_loop_eq x _ h [], fun q hq hq0 hv he => ?_,
    by decide!, by decide!⟩
  · have hi' : i < n.toNat := by omega
    rw [finite_difference_divisors_eq, central_difference_divisors_eq, List.getElem?_map,
      List.getElem?_map, List.getElem?_range hi']
    exact ⟨rfl, rfl⟩
  · have hf : ∀ d ∈ finite_difference_divisors h n, d.isZero = false := by
      intro d hd
      rw [finite_difference_divisors_eq, List.mem_map] at hd
      obtain ⟨i, hi, rfl⟩ := hd
      rw [List.mem_range] at hi
      rw [hq]
      exact (halved_isZero i q hq0 hv (by omega)).1
    have hc : ∀ d ∈ central_difference_divisors h n, d.isZero = false := by
      intro d hd
      rw [central_difference_divisors_eq, List.mem_map] at hd
      obtain ⟨i, hi, rfl⟩ := hd
      rw [List.mem_range] at hi
      rw [hq]
      exact (halved_isZero i q hq0 hv (by omega)).2
    exact ⟨hf, hc, finite_difference_guarded_loop_eq f x _ h [] hf,
      central_difference_guarded_loop_eq x _ h [] hc⟩

theorem difference_divisors_halved_witness :
    finite_difference_guarded (fin 2) (ofRat (1 / 10)) 20 f =
      some (finite_difference (fin 2) (ofRat (1 / 10)) 20 f) ∧
    central_difference_guarded (fin 2) (ofRat (1 / 10)) 20 f =
      some (central_difference (fin 2) (ofRat (1 / 10)) 20 f) :=
  ⟨(difference_divisors_halved (fin 2) (ofRat (1 / 10)) 20 f).2.1
      (difference_divisors_halved (fin 2) (ofRat (1 / 10)) 20 f).2.2.2.2.1,
    (difference_divisors_halved (fin 2) (ofRat (1 / 10)) 20 f).2.2.1
      (difference_divisors_halved (fin 2) (ofRat (1 / 10)) 20 f).2.2.2.2.2⟩

/-- C13, counterexample: element `3` of `central_difference(2, 0.1, 20, d)` is
`2 + 3 * 2^-48`, about `2.0000000000000107`, not `2x - 2 = 2`. -/
theorem central_difference_element_not_exact :
    (central_difference (fin 2) (ofRat (1 / 10)) 20 (fun x => x))[3]?
      = some (fin (2 + 3 * pow2 (-48))) ∧
    (fin (2 + 3 * pow2 (-48)) : Double) ≠ fin (2 * 2 - 2) := by
  decide!

/-- C13, amended: `central_difference` does not depend on its function argument: for every
`x`, `h`, `n` and every two functions `d1`, `d2` the results are equal, and they are the
central-difference sequence of the file-level `f(x) = x^2 - 2x - 1`, whose element `i` is
`(f(x + h_i) - f(x - h_i)) / (2 * h_i)` in double arithmetic at the step `h_i` after `i`
halvings. Its elements are `2x - 2` only up to rounding: in the run of `main` (`x = 2`,
`h = 0.1`, `n = 20`) every element is within `10^-8` of `2`. -/
theorem central_difference_independent_of_argument (x h : Double) (n : Int)
    (d1 d2 : Double → Double) :
    central_difference x h n d1 = central_difference x h n d2 ∧
    central_difference x h n d1 =
      (List.range n.toNat).map (fun i =>
        (f (x + halved i h) - f (x - halved i h)) / (fin 2 * halved i h)) ∧
    ∀ c ∈ central_difference (fin 2) (ofRat (1 / 10)) 20 d1,
      c.isFinite = true ∧ |c.toRat - 2| ≤ 1 / 10 ^ 8 := by
  refine ⟨rfl, central_difference_halved x h n d1, ?_⟩
  have h20 : ∀ c ∈ central_difference (fin 2) (ofRat (1 / 10)) 20 f,
      c.isFinite = true ∧ |c.toRat - 2| ≤ 1 / 10 ^ 8 := by decide!
  exact h20

/-- C16, counterexample: `numerical_limit(1.5 * 2^1023, 1, 1, 0, f)` with `f(x) = x` returns
`+inf`, which is not the sentinel, while both final probes are the finite value
`1.5 * 2^1023` (the step `1` is absorbed): the sum of the probes overflows, and the result
does not lie between them. -/
theorem numerical_limit_mean_overflows :
    numerical_limit (fin (3 * pow2 1022)) 1 (fin 1) (fin 0) (fun x => x) = pinf ∧
    (fun x : Double => x) (fin (3 * pow2 1022) - fin 1) = fin (3 * pow2 1022) ∧
    (fun x : Double => x) (fin (3 * pow2 1022) + fin 1) = fin (3 * pow2 1022) := by
  decide!

/-- C16, amended: `numerical_limit` is monotone in the tolerance: for `tol <= tol'`, a result
of the call with `tol` that is not the sentinel is also the result of the call with `tol'`.
A result that is not the sentinel can be an infinity; a finite result for `n >= 1`, with
final probe values `l`, `r` that are binary64 numbers, has `l` and `r` finite and lies
between them, `min l r <= v <= max l r`. -/
theorem numerical_limit_tolerance_monotone (a step tol tol' : Double) (f : Double → Double)
    (n : Int) (htol : Double.le tol tol' = true) :
    (∀ v : Double, v ≠ nan → numerical_limit a n step tol f = v →
      numerical_limit a n step tol' f = v) ∧
    (1 ≤ n → (f (a - halved (n - 1).toNat step)).valid = true →
      (f (a + halved (n - 1).toNat step)).valid = true →
      (numerical_limit a n step tol f).isFinite = true →
      (f (a - halved (n - 1).toNat step)).isFinite = true ∧
      (f (a + halved (n - 1).toNat step)).isFinite = true ∧
      min (f (a - halved (n - 1).toNat step)).toRat (f (a + halved (n - 1).toNat step)).toRat
        ≤ (numerical_limit a n step tol f).toRat ∧
      (numerical_limit a n step tol f).toRat
        ≤ max (f (a - halved (n - 1).toNat step)).toRat
            (f (a + halved (n - 1).toNat step)).toRat) := by
  constructor
  · intro v hv hres
    simp only [numerical_limit] at hres ⊢
    split_ifs at hres with hc
    · rw [if_pos (Double.le_transitive hc htol)]
      exact hres
    · exact absurd hres.symm hv
  · intro hn hl hr hfin
    rw [numerical_limit_halved _ _ _ _ _ hn] at hfin ⊢
    split_ifs at hfin ⊢ with hc
    · exact Double.mean_between _ _ hl hr hfin
    · simp [isFinite] at hfin

theorem numerical_limit_tolerance_monotone_witness :
    (∀ v : Double, v ≠ nan → numerical_limit (fin 2) 3 (fin 1) (fin 1) f_1 = v →
      numerical_limit (fin 2) 3 (fin 1) (fin 2) f_1 = v) ∧
    ((f_1 (fin 2 - halved ((3 : Int) - 1).toNat (fin 1))).isFinite = true ∧
      (f_1 (fin 2 + halved ((3 : Int) - 1).toNat (fin 1))).isFinite = true ∧
      min (f_1 (fin 2 - halved ((3 : Int) - 1).toNat (fin 1))).toRat
          (f_1 (fin 2 + halved ((3 : Int) - 1).toNat (fin 1))).toRat
        ≤ (numerical_limit (fin 2) 3 (fin 1) (fin 1) f_1).toRat ∧
      (numerical_limit (fin 2) 3 (fin 1) (fin 1) f_1).toRat
        ≤ max (f_1 (fin 2 - halved ((3 : Int) - 1).toNat (fin 1))).toRat
            (f_1 (fin 2 + halved ((3 : Int) - 1).toNat (fin 1))).toRat) :=
  ⟨(numerical_limit_tolerance_monotone (fin 2) (fin 1) (fin 1) (fin 2) f_1 3 (by decide!)).1,
    (numerical_limit_tolerance_monotone (fin 2) (fin 1) (fin 1) (fin 2) f_1 3 (by decide!)).2
      (by decide) (by decide!) (by decide!) (by decide!)⟩

end Binary64Model
